import Mathlib

/-!
# udiskCopy: mount-table parsing and directory replication

A shallow embedding of `udiskCopy.go`, with the properties of its specification.

* Go strings are lists of Unicode code points (`Str`); Go `error` values are
  `Option Error`, `none` being `nil`; counters are unbounded (the number of entries of a
  file tree is far below the range of `int`).
* Library functions that the program calls (`strings.Fields`, `strings.TrimSpace`,
  `strings.Replace`, `bufio.Reader.ReadString`, `filepath.Clean`, `filepath.Join`,
  `filepath.Abs`, `filepath.Walk`) follow their Go implementation.
* The operating system is explicit state (`World`): a file tree under `/`, without
  symbolic links, and a table of the system calls that are made to fail (`Faults`).
  Functions of the program take the state and return the new one.
* A call ends by returning an error value or by a panic (`Outcome`).
* The goroutines of `main` are not modelled; `replicate` is the body of one of them.
-/

namespace UdiskCopy

/-! ## Strings -/

/-- A Go string, as its sequence of code points. -/
abbrev Str := List Char

/-- Go `error` values that occur in the program. -/
inductive Error where
  | EOF : Error
  | SkipDir : Error
  | SkipAll : Error
  | errno (msg : String) : Error
  | New (msg : String) : Error
deriving DecidableEq

/-- Go `unicode.IsSpace`. -/
def isSpace (c : Char) : Bool :=
  c = '\t' || c = '\n' || c.val = 0x0B || c.val = 0x0C || c = '\r' || c = ' ' ||
  c.val = 0x85 || c.val = 0xA0 || c.val = 0x1680 ||
  (0x2000 ≤ c.val && c.val ≤ 0x200A) ||
  c.val = 0x2028 || c.val = 0x2029 || c.val = 0x202F || c.val = 0x205F || c.val = 0x3000

/-- Scanner of `strings.Fields`: `cur` is the field being read. -/
def fieldsAux : Str → Str → List Str
  | cur, [] => if cur = [] then [] else [cur]
  | cur, c :: cs =>
    if isSpace c then
      (if cur = [] then fieldsAux [] cs else cur :: fieldsAux [] cs)
    else fieldsAux (cur ++ [c]) cs

/-- Go `strings.Fields`: the maximal runs of non-space characters. -/
def Fields (s : Str) : List Str := fieldsAux [] s

/-- Go `bufio.Reader.ReadString(delim)` on the unread input: the data read
(up to and including the delimiter), the input left, and the error, which is
`EOF` when the input ends before a delimiter is found. -/
def ReadString (delim : Char) : Str → Str × Str × Option Error
  | [] => ([], [], some Error.EOF)
  | c :: cs =>
    if c = delim then ([c], cs, none)
    else
      let r := ReadString delim cs
      (c :: r.1, r.2.1, r.2.2)

/-! ## Data model -/

/-- The struct `procMounts`. -/
structure procMounts where
  dev : Str
  mountPoint : Str
  mountFsType : Str
  mountOption : Str
deriving DecidableEq

/-- The state of a `pb.ProgressBar` that the program can observe; `name` holds the two
operands of the format `%d:%s`. -/
structure ProgressBar where
  total : Int
  current : Int
  finished : Bool
  name : Int × Str
deriving DecidableEq

/-- The struct `udisk`. -/
structure udisk where
  mount : procMounts
  progress : Option ProgressBar
  index : Int
  total : Int
  dstDirName : Str
  srcDirMode : Nat
deriving DecidableEq

/-- Go `new(udisk)`: every field has its zero value. -/
def udisk.new : udisk :=
  ⟨⟨[], [], [], []⟩, none, 0, 0, [], 0⟩

/-! ## Mount-table parsing -/

/-- The method `ParseProcMountsFileLine`. -/
def ParseProcMountsFileLine (u : udisk) (line : Str) : udisk :=
  let mount := Fields line
  if mount.length < 4 then u
  else
    { u with mount := ⟨mount.getD 0 [], mount.getD 1 [], mount.getD 2 [], mount.getD 3 []⟩ }

/-- The `for` loop of `ParseProcMountsFile`; every iteration consumes at least
one character of the reader, so `fuel` above the input length is never used up. -/
def readLoop (fstype : Str) : Nat → Str → List udisk → List udisk
  | 0, _, udisks => udisks
  | fuel + 1, reader, udisks =>
    match ReadString '\n' reader with
    | (_, _, some _) => udisks
    | (line, reader1, none) =>
      let u := ParseProcMountsFileLine udisk.new line
      if u.mount.mountFsType = fstype then readLoop fstype fuel reader1 (udisks ++ [u])
      else readLoop fstype fuel reader1 udisks

/-- The function `ParseProcMountsFile`; `procMountsFile` is the outcome of opening
`/proc/mounts`: its content, or the error of `os.OpenFile`. -/
def ParseProcMountsFile (procMountsFile : Except Error Str) (fstype : Str) :
    List udisk × Option Error :=
  match procMountsFile with
  | .error err => ([], some err)
  | .ok content => (readLoop fstype (content.length + 1) content [], none)

/-! ## Reading of the claims about the mount table -/

/-- The newline-terminated lines of a text (without their newline), and the
text after the last newline. -/
def splitLines : Str → List Str × Str
  | [] => ([], [])
  | c :: cs =>
    let r := splitLines cs
    if c = '\n' then ([] :: r.1, r.2)
    else
      match r.1 with
      | [] => ([], c :: r.2)
      | l :: ls => ((c :: l) :: ls, r.2)

/-- The lines that end in a newline. -/
def terminatedLines (text : Str) : List Str := (splitLines text).1

/-- All lines of a table: the terminated ones and a non-empty last line without newline. -/
def tableLines (text : Str) : List Str :=
  (splitLines text).1 ++ (if (splitLines text).2 = [] then [] else [(splitLines text).2])

/-- The record holding the first four fields of a line. -/
def recordOfLine (line : Str) : udisk :=
  { udisk.new with
    mount := ⟨(Fields line).getD 0 [], (Fields line).getD 1 [], (Fields line).getD 2 [],
      (Fields line).getD 3 []⟩ }

/-- A line has at least four fields and its third field is `t`. -/
def lineMatches (t : Str) (line : Str) : Bool :=
  decide (4 ≤ (Fields line).length) && decide ((Fields line).getD 2 [] = t)

/-- The records claim C1 describes: one per line of the table whose third field is `t`. -/
def claimedRecords (text t : Str) : List udisk :=
  ((tableLines text).filter (fun l => decide ((Fields l).get? 2 = some t))).map recordOfLine

/-- The text cut off after its last newline character. -/
def cutAfterLastNewline : Str → Str
  | [] => []
  | c :: cs => if c = '\n' ∨ '\n' ∈ cs then c :: cutAfterLastNewline cs else []

/-- The number of lines of a table that have at least four fields. -/
def linesWithFourFields (text : Str) : Nat :=
  ((tableLines text).filter (fun l => decide (4 ≤ (Fields l).length))).length

/-! ## More of the Go library: `strings` and `path/filepath` -/

/-- Go `strings.TrimSpace`. -/
def TrimSpace (s : Str) : Str :=
  ((s.dropWhile isSpace).reverse.dropWhile isSpace).reverse

/-- Go `strings.Index`: the position of the first occurrence of `substr` in `s`;
`none` stands for `-1`. -/
def Index : Str → Str → Option Nat
  | [], substr => if substr = [] then some 0 else none
  | c :: cs, substr =>
    if substr.isPrefixOf (c :: cs) then some 0
    else (Index cs substr).map (fun i => i + 1)

/-- The loop of `strings.Count` for a non-empty `substr`; an iteration that finds an
occurrence drops at least one character. -/
def countLoop (substr : Str) : Nat → Str → Nat
  | 0, _ => 0
  | fuel + 1, s =>
    match Index s substr with
    | none => 0
    | some i => 1 + countLoop substr fuel (s.drop (i + substr.length))

/-- Go `strings.Count`: the number of non-overlapping occurrences of `substr`. -/
def Count (s substr : Str) : Nat :=
  if substr = [] then s.length + 1 else countLoop substr (s.length + 1) s

/-- The replacement loop of `strings.Replace`: `k` replacements remain, `i` have been
made, `rest` is `s[start:]`. -/
def replaceLoop (old new : Str) : Nat → Nat → Str → Str
  | 0, _, rest => rest
  | k + 1, i, rest =>
    if old = [] then
      rest.take (if 0 < i then 1 else 0) ++ new ++
        replaceLoop old new k (i + 1) (rest.drop (if 0 < i then 1 else 0))
    else
      match Index rest old with
      | none => rest
      | some j => rest.take j ++ new ++ replaceLoop old new k (i + 1) (rest.drop (j + old.length))

/-- Go `strings.Replace(s, old, new, n)`. -/
def Replace (s old new : Str) (n : Int) : Str :=
  if old = new ∨ n = 0 then s
  else if Count s old = 0 then s
  else
    replaceLoop old new
      (if n < 0 ∨ (Count s old : Int) < n then Count s old else n.toNat) 0 s

/-- The elements of a path between its separators (empty ones included). -/
def pathElems : Str → List Str
  | [] => [[]]
  | c :: cs =>
    if c = '/' then [] :: pathElems cs
    else
      match pathElems cs with
      | [] => [[c]]
      | e :: es => (c :: e) :: es

/-- The inner loop of the `..` case of `filepath.Clean`: from write position `w`, step
back while `w` is above `dotdot` and the character at `w` is no separator. -/
def backtrack (out : Str) (dotdot : Nat) : Nat → Nat
  | 0 => 0
  | w + 1 => if dotdot < w + 1 ∧ out.getD (w + 1) '/' ≠ '/' then backtrack out dotdot w else w + 1

/-- One iteration of the loop of `filepath.Clean` on the path element `e`; the state is
the output buffer and the index `dotdot`. -/
def cleanStep (rooted : Bool) (st : Str × Nat) (e : Str) : Str × Nat :=
  if e = [] ∨ e = ['.'] then st
  else if e = ['.', '.'] then
    if st.2 < st.1.length then
      (st.1.take (backtrack st.1 st.2 (st.1.length - 1)), st.2)
    else if rooted then st
    else
      ((if 0 < st.1.length then st.1 ++ ['/'] else st.1) ++ ['.', '.'],
        ((if 0 < st.1.length then st.1 ++ ['/'] else st.1) ++ ['.', '.']).length)
  else
    ((if (rooted ∧ st.1.length ≠ 1) ∨ (¬ rooted ∧ st.1.length ≠ 0) then st.1 ++ ['/'] else st.1)
      ++ e, st.2)

/-- The output buffer of `filepath.Clean` when its loop ends. -/
def cleanBuf (path : Str) : Str :=
  if path.head? = some '/' then
    ((pathElems path).foldl (cleanStep true) (['/'], 1)).1
  else
    ((pathElems path).foldl (cleanStep false) ([], 0)).1

/-- Go `filepath.Clean` (Unix: no volume name, separator `/`). -/
def Clean (path : Str) : Str :=
  if path = [] then ['.']
  else if cleanBuf path = [] then ['.'] else cleanBuf path

/-- Go `strings.Join(elems, "/")`. -/
def joinSep : List Str → Str
  | [] => []
  | [e] => e
  | e :: es => e ++ '/' :: joinSep es

/-- Go `filepath.Join`: the elements from the first non-empty one on, joined by the
separator and cleaned; the empty string if all are empty. -/
def Join (elem : List Str) : Str :=
  match elem.dropWhile (fun e => decide (e = [])) with
  | [] => []
  | es => Clean (joinSep es)

/-- Go `filepath.Abs` in the working directory `wd`. -/
def Abs (wd path : Str) : Str :=
  if path.head? = some '/' then Clean path else Join [wd, path]

/-- The variable `flagSrc` as `init` leaves it for the value `flag` of the option `-i`. -/
def initFlagSrc (wd flag : Str) : Str :=
  Abs wd flag

/-- The local `udiskOld` of `Remove`: the path that is purged. -/
def udiskOld (u : udisk) (old : Str) : Str :=
  Join [u.mount.mountPoint, old]

/-- The local `dstDirName` of `CopyDir`: the destination root. -/
def dstDir (u : udisk) : Str :=
  Join [u.mount.mountPoint, u.dstDirName]

/-- The local `dstNewPath` of the callback of `CopyDir`: the destination path of the
entry `path`. -/
def dstNewPath (u : udisk) (src path : Str) : Str :=
  Replace path src (dstDir u) (-1)

/-- A target as `main` sets it up for the mount point `m` and the destination name `d`. -/
def target (m d : Str) : udisk :=
  { udisk.new with mount := ⟨[], m, [], []⟩, dstDirName := d }

/-- A single relative path segment: not empty, without separator, neither `.` nor `..`. -/
def isSegment (d : Str) : Bool :=
  decide (d ≠ []) && decide ('/' ∉ d) && decide (d ≠ ['.']) && decide (d ≠ ['.', '.'])

/-- The path `p` is the directory `dir` itself or lies inside it: it continues `dir` by a
separator. -/
def insideDir (dir p : Str) : Bool :=
  decide (p = dir) || (dir ++ ['/']).isPrefixOf p

/-! ## The file system -/

/-- A file or a directory; the children of a directory are listed in the order in which
`readDirNames` returns their names. -/
inductive Node where
  | file (mode : Nat) (content : List Nat) : Node
  | dir (mode : Nat) (children : List (Str × Node)) : Node

/-- Go `os.FileInfo`, as far as the program reads it. -/
structure FileInfo where
  isDir : Bool
  mode : Nat
deriving DecidableEq

/-- The file info of a node. -/
def Node.info : Node → FileInfo
  | .file mode _ => ⟨false, mode⟩
  | .dir mode _ => ⟨true, mode⟩

/-- The bytes read from an open node; reading a directory yields nothing. -/
def Node.content : Node → List Nat
  | .file _ content => content
  | .dir _ _ => []

/-- The child of the given name. -/
def findKid (e : Str) : List (Str × Node) → Option Node
  | [] => none
  | (k, v) :: rest => if k = e then some v else findKid e rest

/-- Replace the child of the given name. -/
def setKid (e : Str) (n : Node) : List (Str × Node) → List (Str × Node)
  | [] => []
  | (k, v) :: rest => if k = e then (k, n) :: rest else (k, v) :: setKid e n rest

/-- Add a child, keeping the names sorted. -/
def insertKid (e : Str) (n : Node) : List (Str × Node) → List (Str × Node)
  | [] => [(e, n)]
  | (k, v) :: rest => if e < k then (e, n) :: (k, v) :: rest else (k, v) :: insertKid e n rest

/-- Remove the child of the given name. -/
def dropKid (e : Str) : List (Str × Node) → List (Str × Node)
  | [] => []
  | (k, v) :: rest => if k = e then rest else (k, v) :: dropKid e rest

/-- The names by which a path is resolved from the root directory: its non-empty elements
other than `.`  (`..` and symbolic links are not interpreted). -/
def elems (path : Str) : List Str :=
  (pathElems path).filter (fun e => decide (e ≠ []) && decide (e ≠ ['.']))

/-- The node at a path. -/
def Node.lookup : Node → List Str → Option Node
  | n, [] => some n
  | .file _ _, _ :: _ => none
  | .dir _ kids, e :: es =>
    match findKid e kids with
    | none => none
    | some child => child.lookup es

/-- The tree after `os.RemoveAll` of a path has succeeded; a path that does not exist
leaves the tree as it is, and so does the root directory `/` itself. -/
def Node.removeAll : Node → List Str → Node
  | n, [] => n
  | .file mode content, _ :: _ => .file mode content
  | .dir mode kids, e :: es =>
    match es, findKid e kids with
    | _, none => .dir mode kids
    | [], some _ => .dir mode (dropKid e kids)
    | _ :: _, some child => .dir mode (setKid e (child.removeAll es) kids)

/-- The tree after `os.MkdirAll` of a path, or `none` when an element of the path is a file. -/
def Node.mkdirAll (perm : Nat) : Node → List Str → Option Node
  | .file _ _, _ => none
  | .dir mode kids, [] => some (.dir mode kids)
  | .dir mode kids, e :: es =>
    match findKid e kids with
    | some child =>
      (child.mkdirAll perm es).map (fun c => Node.dir mode (setKid e c kids))
    | none =>
      ((Node.dir perm []).mkdirAll perm es).map (fun c => Node.dir mode (insertKid e c kids))

/-- The tree after `os.OpenFile(path, O_RDWR|O_CREATE|O_TRUNC, perm)`: an existing file is
emptied, a missing one is created empty; `none` when the path is a directory or its parent
is no directory. -/
def Node.createFile (perm : Nat) : Node → List Str → Option Node
  | _, [] => none
  | .file _ _, _ :: _ => none
  | .dir mode kids, e :: es =>
    match es, findKid e kids with
    | [], none => some (.dir mode (insertKid e (.file perm []) kids))
    | [], some (.file m _) => some (.dir mode (setKid e (.file m []) kids))
    | [], some (.dir _ _) => none
    | _ :: _, none => none
    | _ :: _, some child =>
      (child.createFile perm es).map (fun c => Node.dir mode (setKid e c kids))

/-- The tree after the bytes `content` have been written to the file at a path. -/
def Node.write (content : List Nat) : Node → List Str → Node
  | .file mode _, [] => .file mode content
  | .dir mode kids, [] => .dir mode kids
  | .file mode old, _ :: _ => .file mode old
  | .dir mode kids, e :: es =>
    match findKid e kids with
    | none => .dir mode kids
    | some child => .dir mode (setKid e (child.write content es) kids)

mutual
/-- Every path of the tree at `path` with its file info and content, in walk order. -/
def Node.listing : Node → Str → List (Str × FileInfo × List Nat)
  | .file mode content, path => [(path, ⟨false, mode⟩, content)]
  | .dir mode kids, path => (path, ⟨true, mode⟩, []) :: listingKids kids path
/-- The listing of the children of the directory at `path`. -/
def listingKids : List (Str × Node) → Str → List (Str × FileInfo × List Nat)
  | [], _ => []
  | (name, child) :: rest, path => child.listing (path ++ '/' :: name) ++ listingKids rest path
end

mutual
/-- The number of files and directories strictly beneath a node. -/
def Node.descendants : Node → Nat
  | .file _ _ => 0
  | .dir _ kids => descendantsKids kids
/-- The number of files and directories in a list of children and beneath them. -/
def descendantsKids : List (Str × Node) → Nat
  | [] => 0
  | (_, child) :: rest => 1 + child.descendants + descendantsKids rest
end

mutual
/-- Every name in the tree is the name of a directory entry: a single path segment. -/
def Node.namesValid : Node → Bool
  | .file _ _ => true
  | .dir _ kids => namesValidKids kids
/-- Every name in a list of children and beneath them is a single path segment. -/
def namesValidKids : List (Str × Node) → Bool
  | [] => true
  | (name, child) :: rest => isSegment name && child.namesValid && namesValidKids rest
end

/-- Failures of system calls that the tree does not explain (permissions, input and
output errors, a full device), by path; `none` means that the call is not made to fail. -/
structure Faults where
  lstat : Str → Option String
  readDir : Str → Option String
  openFile : Str → Option String
  stat : Str → Option String
  create : Str → Option String
  copy : Str → Str → Option (Nat × String)
  sync : Str → Option String
  mkdirAll : Str → Option String
  removeAll : Str → Option String

/-- No system call is made to fail. -/
def Faults.none : Faults :=
  ⟨fun _ => Option.none, fun _ => Option.none, fun _ => Option.none, fun _ => Option.none,
    fun _ => Option.none, fun _ _ => Option.none, fun _ => Option.none, fun _ => Option.none,
    fun _ => Option.none⟩

/-- The result of a call: it returns an error value (`none` is `nil`), or it panics. -/
inductive Outcome where
  | returned (err : Option Error) : Outcome
  | panicked (msg : String) : Outcome
deriving DecidableEq

/-- One call of the callback of a walk, for the history: the path presented, whether file
info came with it, and how the callback ended. -/
structure Visit where
  path : Str
  hasInfo : Bool
  result : Outcome
deriving DecidableEq

/-- The state outside the program: the file tree under `/`, the failures to come, the lines
logged, and the history of the calls of the callback of `CopyDir` (a ghost field). -/
structure World where
  fs : Node
  faults : Faults
  log : List (Str × Option Error)
  presented : List Visit

/-- Go `log.Println(path, err)`. -/
def World.println (w : World) (path : Str) (err : Option Error) : World :=
  { w with log := w.log ++ [(path, err)] }

/-- Go `os.Lstat`. -/
def lstat (faults : Faults) (fs : Node) (path : Str) : Except Error Node :=
  match faults.lstat path with
  | some msg => .error (.errno msg)
  | none =>
    match fs.lookup (elems path) with
    | none => .error (.errno "no such file or directory")
    | some n => .ok n

/-- Go `os.Open`. -/
def osOpen (w : World) (path : Str) : Except Error Node :=
  match w.faults.openFile path with
  | some msg => .error (.errno msg)
  | none =>
    match w.fs.lookup (elems path) with
    | none => .error (.errno "no such file or directory")
    | some n => .ok n

/-- Go `os.OpenFile(path, os.O_RDWR|os.O_CREATE|os.O_TRUNC, perm)`. -/
def osCreate (w : World) (path : Str) (perm : Nat) : Except Error World :=
  match w.faults.create path with
  | some msg => .error (.errno msg)
  | none =>
    match w.fs.createFile perm (elems path) with
    | none => .error (.errno "cannot create file")
    | some fs => .ok { w with fs := fs }

/-- Go `io.Copy(dst, src)`: the bytes of the source reach the destination, up to the
point of a failure. -/
def ioCopy (w : World) (srcFile dstFile : Str) (content : List Nat) : World × Option Error :=
  match w.faults.copy srcFile dstFile with
  | some (n, msg) => ({ w with fs := w.fs.write (content.take n) (elems dstFile) }, some (.errno msg))
  | none => ({ w with fs := w.fs.write content (elems dstFile) }, none)

/-- Go `File.Sync`. -/
def fileSync (w : World) (path : Str) : Option Error :=
  (w.faults.sync path).map Error.errno

/-- Go `os.MkdirAll`. -/
def osMkdirAll (w : World) (path : Str) (perm : Nat) : World × Option Error :=
  match w.faults.mkdirAll path with
  | some msg => (w, some (.errno msg))
  | none =>
    match w.fs.mkdirAll perm (elems path) with
    | none => (w, some (.errno "not a directory"))
    | some fs => ({ w with fs := fs }, none)

/-- Go `os.RemoveAll`. -/
def osRemoveAll (w : World) (path : Str) : World × Option Error :=
  match w.faults.removeAll path with
  | some msg => (w, some (.errno msg))
  | none => ({ w with fs := w.fs.removeAll (elems path) }, none)

/-! ## `filepath.Walk` -/

/-- Go `filepath.WalkFunc`, with the state the function works on passed through. -/
abbrev WalkFunc (σ : Type) := σ → Str → Option FileInfo → Option Error → σ × Outcome

mutual
/-- Go `filepath.walk` (the recursive helper of `Walk`) on the tree found at `path`: a
file is handed to `walkFn`; for a directory the names are read, the directory is handed to
`walkFn` with the error of the reading, and, if neither failed, the names are walked. -/
def walk {σ : Type} (faults : Faults) (walkFn : WalkFunc σ) : Node → Str → σ → σ × Outcome
  | .file mode _, path, s => walkFn s path (some ⟨false, mode⟩) none
  | .dir mode kids, path, s =>
    match walkFn s path (some ⟨true, mode⟩) ((faults.readDir path).map Error.errno) with
    | (s1, .panicked msg) => (s1, .panicked msg)
    | (s1, .returned err1) =>
      if (faults.readDir path).map Error.errno ≠ none ∨ err1 ≠ none then (s1, .returned err1)
      else walkNames faults walkFn kids path s1
/-- The loop of `filepath.walk` over the names of a directory: each name is joined to
`path` and examined by `lstat`; on failure `walkFn` gets the name without file info. -/
def walkNames {σ : Type} (faults : Faults) (walkFn : WalkFunc σ) :
    List (Str × Node) → Str → σ → σ × Outcome
  | [], _, s => (s, .returned none)
  | (name, child) :: rest, path, s =>
    match faults.lstat (Join [path, name]) with
    | some msg =>
      match walkFn s (Join [path, name]) none (some (.errno msg)) with
      | (s1, .panicked m) => (s1, .panicked m)
      | (s1, .returned err) =>
        if err ≠ none ∧ err ≠ some .SkipDir then (s1, .returned err)
        else walkNames faults walkFn rest path s1
    | none =>
      match walk faults walkFn child (Join [path, name]) s with
      | (s1, .panicked m) => (s1, .panicked m)
      | (s1, .returned err) =>
        if err ≠ none ∧ (¬ child.info.isDir ∨ err ≠ some .SkipDir) then (s1, .returned err)
        else walkNames faults walkFn rest path s1
end

/-- Go `filepath.Walk`.  The walker goes through the tree that is at `root` when the walk
starts: the source is taken not to change while it is walked. -/
def Walk {σ : Type} (faults : Faults) (fs : Node) (root : Str) (fn : WalkFunc σ) (s : σ) :
    σ × Outcome :=
  let r := match lstat faults fs root with
    | .error err => fn s root none (some err)
    | .ok info => walk faults fn info root s
  if r.2 = .returned (some .SkipDir) ∨ r.2 = .returned (some .SkipAll) then
    (r.1, .returned none)
  else r

/-! ## The program -/

/-- The method `copyFile`.  The error of `src.Stat()` is dropped, so after a failed `Stat`
the call `stat.Mode()` is made on a nil value and panics; the results of `io.Copy` and
`dst.Sync()` are dropped. -/
def copyFile (w : World) (srcFile dstFile : Str) : World × Outcome :=
  match osOpen w srcFile with
  | .error err => (w, .returned (some err))
  | .ok src =>
    match w.faults.stat srcFile with
    | some _ => (w, .panicked "invalid memory address or nil pointer dereference")
    | none =>
      match osCreate w dstFile src.info.mode with
      | .error err => (w, .returned (some err))
      | .ok w1 =>
        match ioCopy w1 srcFile dstFile src.content, fileSync w1 dstFile with
        | (w2, _), _ => (w2, .returned none)

/-- The method `Remove`. -/
def Remove (u : udisk) (old : Str) (w : World) : World × Option Error :=
  match osRemoveAll w (udiskOld u old) with
  | (w1, some err) => (w1.println [] (some err), some err)
  | (w1, none) => (w1, none)

/-- Go `progress.Add(1)`. -/
def udisk.progressAdd (u : udisk) (n : Int) : udisk :=
  { u with progress := u.progress.map (fun bar => { bar with current := bar.current + n }) }

/-- Go `progress.Finish()`. -/
def udisk.progressFinish (u : udisk) : udisk :=
  { u with progress := u.progress.map (fun bar => { bar with finished := true }) }

/-- The function literal that `CopyDir` passes to `filepath.Walk`; `u` is the receiver
(whose progress bar is in the state), `src` and `dstDirName` are the captured variables. -/
def copyEntry (src dstDirName : Str) : WalkFunc (udisk × World) :=
  fun s path f err =>
    match f with
    | none => ((s.1, s.2.println path err), .returned err)
    | some f =>
      if path = src then (s, .returned none)
      else
        match (if ¬ f.isDir then copyFile s.2 path (Replace path src dstDirName (-1))
          else ((osMkdirAll s.2 (Replace path src dstDirName (-1)) f.mode).1,
            .returned (osMkdirAll s.2 (Replace path src dstDirName (-1)) f.mode).2)) with
        | (w1, .panicked msg) => ((s.1, w1), .panicked msg)
        | (w1, .returned err1) =>
          ((s.1.progressAdd 1, if err1 ≠ none then w1.println path err1 else w1),
            .returned err1)

/-- The callback of `CopyDir` with each of its calls entered in the history. -/
def copyCallback (src dstDirName : Str) : WalkFunc (udisk × World) :=
  fun s path f err =>
    (((copyEntry src dstDirName s path f err).1.1,
      { (copyEntry src dstDirName s path f err).1.2 with
        presented := (copyEntry src dstDirName s path f err).1.2.presented ++
          [⟨path, f.isSome, (copyEntry src dstDirName s path f err).2⟩] }),
      (copyEntry src dstDirName s path f err).2)

/-- The method `CopyDir`.  A panic of the callback leaves the method before
`progress.Finish()`. -/
def CopyDir (u : udisk) (src : Str) (w : World) : (udisk × World) × Outcome :=
  match osMkdirAll w (dstDir u) u.srcDirMode with
  | (w1, some err) => ((u, w1.println (dstDir u) (some err)), .returned (some err))
  | (w1, none) =>
    if TrimSpace src = TrimSpace (dstDir u) then
      (({ u with progress := some ⟨u.total, 0, false, (u.index, dstDir u)⟩ }, w1),
        .returned (some (.New "src not invail")))
    else
      match Walk w1.faults w1.fs src (copyCallback src (dstDir u))
        ({ u with progress := some ⟨u.total, 0, false, (u.index, dstDir u)⟩ }, w1) with
      | (s, .panicked msg) => (s, .panicked msg)
      | (s, .returned err) => ((s.1.progressFinish, s.2), .returned err)

/-- The function literal that `main` passes to `filepath.Walk` to count the entries. -/
def countEntry (flagSrc : Str) : WalkFunc Nat :=
  fun fileNumbers path f err =>
    (if f.isSome ∧ path ≠ flagSrc then fileNumbers + 1 else fileNumbers, .returned err)

/-- The variable `fileNumbers` of `main` after the counting walk. -/
def fileNumbers (flagSrc : Str) (w : World) : Nat :=
  (Walk w.faults w.fs flagSrc (countEntry flagSrc) 0).1

/-- The target that `main` hands to its task: the parsed record with `index`, `total`,
`dstDirName` and `srcDirMode` set. -/
def setup (u : udisk) (i : Nat) (fileNumbers : Nat) (flagDstDirName : Str) (mode : Nat) : udisk :=
  { u with index := i, total := fileNumbers, dstDirName := flagDstDirName, srcDirMode := mode }

/-- The targets that `main` hands to its goroutines, in table order: the records of type
`vfat` with `index`, `total`, `dstDirName` and `srcDirMode` set; `none` where `main` ends in
`log.Fatal`.  `os.Stat` is `lstat` here, the tree having no symbolic links. -/
def mainTargets (flagSrc flagDstDirName : Str) (procMountsFile : Except Error Str)
    (w : World) : Option (List udisk) :=
  match lstat w.faults w.fs flagSrc with
  | .error _ => none
  | .ok stat =>
    match ParseProcMountsFile procMountsFile "vfat".toList with
    | (_, some _) => none
    | (udisks, none) =>
      some (udisks.enum.map
        (fun iu => setup iu.2 iu.1 (fileNumbers flagSrc w) flagDstDirName stat.info.mode))

/-- The body of the goroutine that `main` starts for a target: `Remove`, whose result is
dropped, then `CopyDir`. -/
def replicate (u : udisk) (flagSrc : Str) (w : World) : (udisk × World) × Outcome :=
  CopyDir u flagSrc (Remove u u.dstDirName w).1

/-! ## Observations that the claims and the lemmas speak of -/

/-- The number of the history's entries that are not the root and came with file info. -/
def presentedWithInfo (src : Str) (w : World) : Nat :=
  (w.presented.filter (fun v => v.hasInfo && decide (v.path ≠ src))).length

/-- The number of the history's entries that are not the root. -/
def presentedNonRoot (src : Str) (w : World) : Nat :=
  (w.presented.filter (fun v => decide (v.path ≠ src))).length

/-- The value of the progress counter of a target (0 before the bar is started). -/
def udisk.current (u : udisk) : Int :=
  match u.progress with
  | some bar => bar.current
  | none => 0

/-- An outcome that `filepath.Walk` treats as a request to skip. -/
def Outcome.isSkip : Outcome → Bool
  | .returned (some .SkipDir) => true
  | .returned (some .SkipAll) => true
  | _ => false

/-- The error values that the walker itself hands to the callback. -/
def fromWalker (e : Option Error) : Prop :=
  e = none ∨ ∃ msg, e = some (.errno msg)

/-- The call ended in a panic. -/
def Outcome.isPanic : Outcome → Bool
  | .panicked _ => true
  | .returned _ => false

/-- The result of the latest call of the callback (nil before the first call). -/
def lastResult (w : World) : Outcome :=
  (w.presented.getLast?.map (fun v => v.result)).getD (.returned none)

/-- The invariant of the walk of `CopyDir`, between two calls of the callback: the latest
call ended with `r`, every call before it returned nil, and the progress counter has
advanced once for each non-root entry presented with file info, but for a panic. -/
def walkInv (src : Str) (s : udisk × World) (r : Outcome) : Prop :=
  r.isSkip = false ∧ s.1.progress.isSome = true ∧
  s.1.current + (if r.isPanic then 1 else 0) = presentedWithInfo src s.2 ∧
  (∀ v ∈ s.2.presented.dropLast, v.result = .returned none) ∧
  lastResult s.2 = r

/-- An absolute path in the form that `filepath.Clean` leaves unchanged, as `filepath.Abs`
returns it. -/
def isCleanAbs (p : Str) : Prop :=
  p.head? = some '/' ∧ Clean p = p

/-- The path `p` continued by the name `n`. -/
def childPath (p n : Str) : Str :=
  (if p.length ≠ 1 then p ++ ['/'] else p) ++ n

/-- The paths built from `/` by adding one path segment after the other. -/
inductive CleanPath : Str → Prop where
  | root : CleanPath ['/']
  | child (p n : Str) : CleanPath p → isSegment n = true → CleanPath (childPath p n)

/-- The node is a file. -/
def Node.isFile : Node → Bool
  | .file _ _ => true
  | .dir _ _ => false

/-! ## Example states -/

/-- The target for the mount-table line `/dev/sdb1 /media/usb0 vfat rw 0 0`, set up by
`main` with the destination name `backup`. -/
def usb0 : udisk :=
  setup (ParseProcMountsFileLine udisk.new "/dev/sdb1 /media/usb0 vfat rw 0 0\n".toList)
    0 2 "backup".toList 0o755

/-- A tree in which the source directory is `/media/usb0/backup`, holding the files `a.txt`
and `b.txt`. -/
def sourceOnTarget : World :=
  ⟨.dir 0o755 [("media".toList, .dir 0o755 [("usb0".toList, .dir 0o755 [("backup".toList,
      .dir 0o755 [("a.txt".toList, .file 0o644 [104, 105]),
        ("b.txt".toList, .file 0o600 [111])])])])],
    Faults.none, [], []⟩

/-- A tree with the source directory `/src` holding the files `a.txt` and `b.txt`, and the
empty mount point `/media/usb0`. -/
def twoFiles : Node :=
  .dir 0o755 [
    ("media".toList, .dir 0o755 [("usb0".toList, .dir 0o755 [])]),
    ("src".toList, .dir 0o755 [("a.txt".toList, .file 0o644 [104, 105]),
      ("b.txt".toList, .file 0o600 [111])])]

/-- The file `/src/a.txt` cannot be opened. -/
def unreadableA : World :=
  ⟨twoFiles,
    { Faults.none with
      openFile := fun p => if p = "/src/a.txt".toList then some "permission denied" else none },
    [], []⟩

/-- The entry `/src/a.txt` cannot be examined: `Lstat` fails for it. -/
def noInfoA : World :=
  ⟨twoFiles,
    { Faults.none with
      lstat := fun p => if p = "/src/a.txt".toList then some "permission denied" else none },
    [], []⟩

/-- The device is full: copying into `/media/usb0/a.txt` fails before the first byte. -/
def deviceFull : World :=
  ⟨twoFiles,
    { Faults.none with
      copy := fun _ d =>
        if d = "/media/usb0/a.txt".toList then some (0, "no space left on device") else none },
    [], []⟩

/-- Syncing `/media/usb0/a.txt` fails. -/
def syncFails : World :=
  ⟨twoFiles,
    { Faults.none with
      sync := fun p => if p = "/media/usb0/a.txt".toList then some "input/output error" else none },
    [], []⟩

/-- Reading the file info of the opened `/src/a.txt` fails. -/
def statFails : World :=
  ⟨twoFiles,
    { Faults.none with
      stat := fun p => if p = "/src/a.txt".toList then some "input/output error" else none },
    [], []⟩

/-- The source directory of `flatSource`: two files and two empty subdirectories. -/
def flatRoot : Node :=
  .dir 0o755 [("a.txt".toList, .file 0o644 [104, 105]), ("b.txt".toList, .file 0o600 [111]),
    ("d1".toList, .dir 0o755 []), ("d2".toList, .dir 0o700 [])]

/-- A tree with the source directory `/src` holding two files and two empty
subdirectories. -/
def flatSource : World :=
  ⟨.dir 0o755 [("src".toList, flatRoot)], Faults.none, [], []⟩

/-! ## Lemmas on parsing -/

theorem fieldsAux_append_space (ws : Char) (hws : isSpace ws = true) (l cur : Str) :
    fieldsAux cur (l ++ [ws]) = fieldsAux cur l := by
  induction l generalizing cur with
  | nil => simp [fieldsAux, hws]
  | cons c cs ih =>
    simp only [List.cons_append, fieldsAux]
    split_ifs <;> simp [ih]

theorem Fields_append_newline (l : Str) : Fields (l ++ ['\n']) = Fields l :=
  fieldsAux_append_space '\n' (by decide) l []

theorem ReadString_ok (text : Str) :
    ∀ line rest, ReadString '\n' text = (line, rest, none) →
      ∃ l, line = l ++ ['\n'] ∧ rest.length < text.length ∧
        splitLines text = (l :: (splitLines rest).1, (splitLines rest).2) := by
  induction text with
  | nil => intro line rest h; simp [ReadString] at h
  | cons c cs ih =>
    intro line rest h
    by_cases hc : c = '\n'
    · simp only [ReadString, hc, if_true, Prod.mk.injEq] at h
      obtain ⟨h1, h2, -⟩ := h
      subst h1 h2
      exact ⟨[], by simp, by simp, by simp [splitLines, hc]⟩
    · simp only [ReadString, hc, if_false, Prod.mk.injEq] at h
      obtain ⟨h1, h2, h3⟩ := h
      obtain ⟨l, hl, hlen, hsp⟩ := ih (ReadString '\n' cs).1 rest (by
        rw [← h2, ← h3])
      refine ⟨c :: l, by rw [← h1, hl]; rfl, by simp; omega, ?_⟩
      simp [splitLines, hc, hsp]

theorem ReadString_err (text : Str) :
    ∀ line rest e, ReadString '\n' text = (line, rest, some e) →
      splitLines text = ([], text) := by
  induction text with
  | nil => intro line rest e _; rfl
  | cons c cs ih =>
    intro line rest e h
    by_cases hc : c = '\n'
    · simp [ReadString, hc] at h
    · simp only [ReadString, hc, if_false, Prod.mk.injEq] at h
      obtain ⟨-, h2, h3⟩ := h
      have := ih (ReadString '\n' cs).1 rest e (by rw [← h2, ← h3])
      simp [splitLines, hc, this]

theorem ParseProcMountsFileLine_new (t l : Str) (ht : t ≠ []) :
    ((ParseProcMountsFileLine udisk.new (l ++ ['\n'])).mount.mountFsType = t) ↔
      lineMatches t l = true := by
  unfold ParseProcMountsFileLine lineMatches
  rw [Fields_append_newline]
  by_cases h4 : (Fields l).length < 4
  · simp only [h4, if_true]
    have : ¬ 4 ≤ (Fields l).length := by omega
    simp [this, udisk.new]
    exact fun h => ht h
  · have : 4 ≤ (Fields l).length := by omega
    simp [h4, this]

theorem ParseProcMountsFileLine_match (l : Str) (h : 4 ≤ (Fields l).length) :
    ParseProcMountsFileLine udisk.new (l ++ ['\n']) = recordOfLine l := by
  unfold ParseProcMountsFileLine recordOfLine
  rw [Fields_append_newline]
  have : ¬ (Fields l).length < 4 := by omega
  simp [this]

theorem readLoop_eq (t : Str) (ht : t ≠ []) (fuel : Nat) :
    ∀ (reader : Str) (udisks : List udisk), reader.length < fuel →
      readLoop t fuel reader udisks =
        udisks ++ ((terminatedLines reader).filter (lineMatches t)).map recordOfLine := by
  induction fuel with
  | zero => intro reader udisks h; omega
  | succ fuel ih =>
    intro reader udisks hlen
    unfold readLoop
    rcases hrs : ReadString '\n' reader with ⟨line, rest, e⟩
    cases e with
    | some e =>
      simp [terminatedLines, ReadString_err reader line rest e hrs]
    | none =>
      obtain ⟨l, hl, hlt, hsp⟩ := ReadString_ok reader line rest hrs
      subst hl
      have hfuel : rest.length < fuel := by omega
      simp only [terminatedLines, hsp]
      by_cases hm : lineMatches t l = true
      · have h4 : 4 ≤ (Fields l).length := by
          simp [lineMatches] at hm; exact hm.1
        rw [if_pos ((ParseProcMountsFileLine_new t l ht).2 hm), ih rest _ hfuel,
          ParseProcMountsFileLine_match l h4]
        simp [List.filter_cons, hm, terminatedLines]
      · rw [if_neg (fun h => hm ((ParseProcMountsFileLine_new t l ht).1 h)), ih rest _ hfuel]
        simp [List.filter_cons, hm, terminatedLines]

theorem splitLines_no_newline (s : Str) (h : '\n' ∉ s) : (splitLines s).1 = [] := by
  induction s with
  | nil => rfl
  | cons c cs ih =>
    simp only [List.mem_cons, not_or] at h
    have hc : c ≠ '\n' := fun e => h.1 e.symm
    simp [splitLines, hc, ih h.2]

theorem terminatedLines_cut (s : Str) :
    terminatedLines (cutAfterLastNewline s) = terminatedLines s := by
  unfold terminatedLines
  induction s with
  | nil => rfl
  | cons c cs ih =>
    by_cases hc : c = '\n'
    · simp [cutAfterLastNewline, splitLines, hc, ih]
    · by_cases hm : '\n' ∈ cs
      · simp only [cutAfterLastNewline, hc, hm, or_true, if_true, splitLines, if_false, ih]
        cases (splitLines cs).1 <;> rfl
      · simp [cutAfterLastNewline, splitLines, hc, hm, splitLines_no_newline cs hm]

theorem cutAfterLastNewline_spec (s : Str) :
    ∃ tail, s = cutAfterLastNewline s ++ tail ∧ '\n' ∉ tail := by
  induction s with
  | nil => exact ⟨[], rfl, by simp⟩
  | cons c cs ih =>
    obtain ⟨tail, h1, h2⟩ := ih
    by_cases h : c = '\n' ∨ '\n' ∈ cs
    · refine ⟨tail, ?_, h2⟩
      simp only [cutAfterLastNewline, h, if_true, List.cons_append]
      rw [← h1]
    · refine ⟨c :: cs, by simp [cutAfterLastNewline, h], ?_⟩
      simp only [not_or] at h
      simp only [List.mem_cons, not_or]
      exact ⟨fun e => h.1 e.symm, h.2⟩

theorem ReadString_length (text line rest : Str) (e : Option Error)
    (h : ReadString '\n' text = (line, rest, e)) : e = none → rest.length < text.length := by
  intro he
  subst he
  obtain ⟨l, -, hlt, -⟩ := ReadString_ok text line rest h
  exact hlt

/-- The read loop does not depend on its fuel once the fuel is above the input length:
the loop of `ParseProcMountsFile` always runs to the end of the input. -/
theorem readLoop_fuel (t : Str) (fuel1 : Nat) :
    ∀ (fuel2 : Nat) (reader : Str) (udisks : List udisk), reader.length < fuel1 →
      reader.length < fuel2 → readLoop t fuel1 reader udisks = readLoop t fuel2 reader udisks := by
  induction fuel1 with
  | zero => intro fuel2 reader udisks h; omega
  | succ fuel1 ih =>
    intro fuel2 reader udisks h1 h2
    cases fuel2 with
    | zero => omega
    | succ fuel2 =>
      unfold readLoop
      rcases hrs : ReadString '\n' reader with ⟨line, rest, e⟩
      cases e with
      | some e => rfl
      | none =>
        have hlt := ReadString_length reader line rest none hrs rfl
        simp only
        split_ifs
        · exact ih fuel2 rest _ (by omega) (by omega)
        · exact ih fuel2 rest _ (by omega) (by omega)

/-! ## Claims on the mount table -/

/-- C1, counterexample: a table whose only line has four fields and the type `vfat`
but no terminating newline has one record by the claim, and the function returns none. -/
theorem ParseProcMountsFile_unterminated_line_dropped :
    (ParseProcMountsFile (.ok "/dev/sdb1 /media/usb0 vfat rw".toList) "vfat".toList).1 = [] ∧
    claimedRecords "/dev/sdb1 /media/usb0 vfat rw".toList "vfat".toList =
      [⟨⟨"/dev/sdb1".toList, "/media/usb0".toList, "vfat".toList, "rw".toList⟩,
        none, 0, 0, [], 0⟩] ∧
    (ParseProcMountsFile (.ok "/dev/sdb1 /media/usb0 vfat rw".toList) "vfat".toList).1 ≠
      claimedRecords "/dev/sdb1 /media/usb0 vfat rw".toList "vfat".toList := by
  decide

/-- C1, amended: for every mount-table text and every non-empty filesystem type `t`,
`ParseProcMountsFile` returns no error and exactly the records of the newline-terminated
lines that have at least four fields and whose third field is `t`, each record holding the
first four fields of its line, in table order, a repeated line giving repeated records. -/
theorem ParseProcMountsFile_terminated_lines (text t : Str) (ht : t ≠ []) :
    ParseProcMountsFile (.ok text) t =
      (((terminatedLines text).filter (lineMatches t)).map recordOfLine, none) := by
  unfold ParseProcMountsFile
  simp only [Prod.mk.injEq, and_true]
  rw [readLoop_eq t ht (text.length + 1) text [] (by omega)]
  simp

/-- Witness of `ParseProcMountsFile_terminated_lines` on a table with a repeated line, a
short line and an unterminated last line. -/
theorem ParseProcMountsFile_terminated_lines_witness :
    "vfat".toList ≠ [] ∧
    ParseProcMountsFile
      (.ok "/dev/sda1 / ext4 rw 0 0\n/dev/sdb1 /mnt vfat rw 0 0\nx y vfat\n/dev/sdb1 /mnt vfat rw 0 0\n/dev/sdc1 /m vfat ro".toList)
      "vfat".toList =
      (((terminatedLines
        "/dev/sda1 / ext4 rw 0 0\n/dev/sdb1 /mnt vfat rw 0 0\nx y vfat\n/dev/sdb1 /mnt vfat rw 0 0\n/dev/sdc1 /m vfat ro".toList).filter
          (lineMatches "vfat".toList)).map recordOfLine, none) :=
  ⟨by decide, ParseProcMountsFile_terminated_lines _ _ (by decide)⟩

/-- C2, the code at the failing input: with the empty filesystem type, a table whose only
line has three fields yields one record (all of whose fields are empty), although no line of
the table has four fields. -/
theorem ParseProcMountsFile_short_line_empty_fstype :
    ParseProcMountsFile (.ok "a b c\n".toList) [] = ([udisk.new], none) ∧
    linesWithFourFields "a b c\n".toList = 0 ∧
    ¬ (ParseProcMountsFile (.ok "a b c\n".toList) []).1.length ≤
      linesWithFourFields "a b c\n".toList := by
  decide

/-- C10: for every mount-table text `s` and non-empty filesystem type `t`, the result of
`ParseProcMountsFile` on `s` is its result on `s` cut off after the last newline; the part
cut off holds no newline, and when `s` holds no newline at all the result is empty. -/
theorem ParseProcMountsFile_ignores_unterminated_tail (s t : Str) (ht : t ≠ []) :
    ParseProcMountsFile (.ok s) t = ParseProcMountsFile (.ok (cutAfterLastNewline s)) t ∧
    (∃ tail, s = cutAfterLastNewline s ++ tail ∧ '\n' ∉ tail) ∧
    ('\n' ∉ s → ParseProcMountsFile (.ok s) t = ([], none)) := by
  refine ⟨?_, cutAfterLastNewline_spec s, ?_⟩
  · unfold ParseProcMountsFile
    simp only [Prod.mk.injEq, and_true]
    rw [readLoop_eq t ht _ s [] (by omega),
      readLoop_eq t ht _ (cutAfterLastNewline s) [] (by omega), terminatedLines_cut]
  · intro h
    unfold ParseProcMountsFile
    simp only [Prod.mk.injEq, and_true]
    rw [readLoop_eq t ht _ s [] (by omega)]
    simp [terminatedLines, splitLines_no_newline s h]

/-- Witness of `ParseProcMountsFile_ignores_unterminated_tail`: the last line has four
fields and the type `vfat`, and no newline. -/
theorem ParseProcMountsFile_ignores_unterminated_tail_witness :
    "vfat".toList ≠ [] ∧
    ParseProcMountsFile (.ok "/dev/sdb1 /mnt vfat rw\n/dev/sdc1 /m vfat ro".toList) "vfat".toList =
      ParseProcMountsFile
        (.ok (cutAfterLastNewline "/dev/sdb1 /mnt vfat rw\n/dev/sdc1 /m vfat ro".toList))
        "vfat".toList :=
  ⟨by decide, (ParseProcMountsFile_ignores_unterminated_tail _ _ (by decide)).1⟩

/-! ## Checks of the library model -/

example : Clean "/a/b/../c/./d//e/".toList = "/a/c/d/e".toList := by decide
example : Clean "a/../../b".toList = "../b".toList := by decide
example : Clean "/../a".toList = "/a".toList := by decide
example : Clean "/".toList = "/".toList := by decide
example : Clean "".toList = ".".toList := by decide
example : Clean "a/..".toList = ".".toList := by decide
example : Clean "../../a/b/../..".toList = "../..".toList := by decide
example : Clean "abc/def/../../..".toList = "..".toList := by decide
example : Clean "/abc/def/../../..".toList = "/".toList := by decide
example : Clean "abc//./../def".toList = "def".toList := by decide
example : Join ["/media/usb0".toList, "backup".toList] = "/media/usb0/backup".toList := by decide
example : Join ["".toList, "backup".toList] = "backup".toList := by decide
example : Join ["/".toList, "a".toList] = "/a".toList := by decide
example : Replace "oink oink oink".toList "k".toList "ky".toList 2 = "oinky oinky oink".toList := by
  decide
example : Replace "oink oink oink".toList "oink".toList "moo".toList (-1) = "moo moo moo".toList := by
  decide
example : Replace "abc".toList [] "-".toList (-1) = "-a-b-c-".toList := by decide
example : Replace "aaaa".toList "aa".toList "b".toList (-1) = "bb".toList := by decide
example : Index "chicken".toList "ken".toList = some 4 := by decide
example : Index "chicken".toList "dmr".toList = none := by decide
example : Count "cheese".toList "e".toList = 3 := by decide
example : Count "five".toList [] = 5 := by decide
example : TrimSpace " \t\n Hello, Gophers \n\t\r\n".toList = "Hello, Gophers".toList := by decide
example : Fields "  foo bar  baz   ".toList = ["foo".toList, "bar".toList, "baz".toList] := by decide

/-! ## Lemmas on `Replace` and `Join` -/

theorem Index_of_isPrefixOf (old s : Str) (hs : s ≠ []) (h : old.isPrefixOf s = true) :
    Index s old = some 0 := by
  cases s with
  | nil => exact absurd rfl hs
  | cons c cs => simp [Index, h]

theorem Index_le (s substr : Str) :
    ∀ i, Index s substr = some i → i + substr.length ≤ s.length := by
  induction s with
  | nil =>
    intro i h
    unfold Index at h
    split_ifs at h with h0
    · simp only [Option.some.injEq] at h
      subst h0; subst h; simp
  | cons c cs ih =>
    intro i h
    unfold Index at h
    split_ifs at h with hp
    · simp only [Option.some.injEq] at h
      have := (List.isPrefixOf_iff_prefix.1 hp).length_le
      omega
    · cases hj : Index cs substr with
      | none => rw [hj] at h; simp at h
      | some j =>
        rw [hj] at h
        simp only [Option.map_some', Option.some.injEq] at h
        have := ih j hj
        simp only [List.length_cons]
        omega

/-- The loop of `Count` does not depend on its fuel once the fuel is above the length of
the string: the loop always runs until no occurrence is left. -/
theorem countLoop_fuel (substr : Str) (hne : substr ≠ []) (fuel1 : Nat) :
    ∀ (fuel2 : Nat) (s : Str), s.length < fuel1 → s.length < fuel2 →
      countLoop substr fuel1 s = countLoop substr fuel2 s := by
  induction fuel1 with
  | zero => intro fuel2 s h; omega
  | succ fuel1 ih =>
    intro fuel2 s h1 h2
    cases fuel2 with
    | zero => omega
    | succ fuel2 =>
      unfold countLoop
      cases hi : Index s substr with
      | none => rfl
      | some i =>
        have hle := Index_le s substr i hi
        have hpos : 0 < substr.length := List.length_pos.2 hne
        have hd : (s.drop (i + substr.length)).length < s.length := by
          rw [List.length_drop]; omega
        simp only
        rw [ih fuel2 _ (by omega) (by omega)]

theorem replaceLoop_head (old new : Str) (hold : old ≠ []) (hnew : new.head? = some '/')
    (k i : Nat) (rel : Str) :
    ∃ tl, replaceLoop old new k i ('/' :: rel) = '/' :: tl := by
  cases k with
  | zero => exact ⟨rel, rfl⟩
  | succ k =>
    simp only [replaceLoop, hold, if_false]
    cases hidx : Index ('/' :: rel) old with
    | none => exact ⟨rel, rfl⟩
    | some j =>
      cases j with
      | zero =>
        cases new with
        | nil => simp at hnew
        | cons a as =>
          simp only [List.head?_cons, Option.some.injEq] at hnew
          subst hnew
          exact ⟨_, rfl⟩
      | succ j => exact ⟨_, rfl⟩

theorem Count_pos_of_isPrefixOf (old s : Str) (hold : old ≠ []) (hs : s ≠ [])
    (h : old.isPrefixOf s = true) : ∃ k, Count s old = k + 1 := by
  unfold Count
  simp only [hold, if_false, countLoop, Index_of_isPrefixOf old s hs h]
  exact ⟨_, Nat.add_comm _ _⟩

theorem Replace_of_prefix (src new rel : Str) (hnew : new.head? = some '/') :
    ∃ tl, Replace (src ++ '/' :: rel) src new (-1) = new ++ '/' :: tl := by
  by_cases heq : src = new
  · exact ⟨rel, by simp [Replace, heq]⟩
  · by_cases hsrc : src = []
    · subst hsrc
      have hc : Count ('/' :: rel) [] = rel.length + 1 + 1 := by simp [Count]
      refine ⟨new ++ replaceLoop [] new rel.length 2 rel, ?_⟩
      simp [Replace, heq, hc, replaceLoop]
    · have hpre : src.isPrefixOf (src ++ '/' :: rel) = true := by
        rw [List.isPrefixOf_iff_prefix]; exact List.prefix_append _ _
      have hne : src ++ '/' :: rel ≠ [] := by simp
      obtain ⟨k, hk⟩ := Count_pos_of_isPrefixOf src _ hsrc hne hpre
      obtain ⟨tl, htl⟩ := replaceLoop_head src new hsrc hnew k 1 rel
      refine ⟨tl, ?_⟩
      simp only [Replace, heq, hk, false_or]
      simp [replaceLoop, hsrc, Index_of_isPrefixOf src _ hne hpre, htl]

theorem backtrack_ge (out : Str) (dotdot w : Nat) (h : dotdot ≤ w) :
    dotdot ≤ backtrack out dotdot w := by
  induction w with
  | zero => simpa [backtrack] using h
  | succ w ih =>
    unfold backtrack
    split_ifs with hc
    · exact ih (by omega)
    · exact h

theorem head?_take_pos (l : Str) (n : Nat) (hn : 1 ≤ n) : (l.take n).head? = l.head? := by
  cases l with
  | nil => simp
  | cons a as =>
    cases n with
    | zero => omega
    | succ n => simp

theorem head?_append_of_head? (l r : Str) (c : Char) (h : l.head? = some c) :
    (l ++ r).head? = some c := by
  cases l with
  | nil => simp at h
  | cons a as => simpa using h

theorem cleanStep_rooted (st : Str × Nat) (e : Str) (h1 : st.1.head? = some '/')
    (h2 : st.2 = 1) :
    (cleanStep true st e).1.head? = some '/' ∧ (cleanStep true st e).2 = 1 := by
  simp only [cleanStep, eq_self, if_true, true_and, not_true_eq_false, false_and, or_false]
  split_ifs with ha hb hc hd
  · exact ⟨h1, h2⟩
  · refine ⟨?_, h2⟩
    simp only
    rw [head?_take_pos _ _ (by
      have := backtrack_ge st.1 st.2 (st.1.length - 1) (by omega)
      omega)]
    exact h1
  · exact ⟨h1, h2⟩
  · exact ⟨head?_append_of_head? _ _ _ (head?_append_of_head? _ _ _ h1), h2⟩
  · exact ⟨head?_append_of_head? _ _ _ h1, h2⟩

theorem foldl_cleanStep_rooted (es : List Str) (st : Str × Nat)
    (h1 : st.1.head? = some '/') (h2 : st.2 = 1) :
    (es.foldl (cleanStep true) st).1.head? = some '/' := by
  induction es generalizing st with
  | nil => exact h1
  | cons e es ih =>
    exact ih _ (cleanStep_rooted st e h1 h2).1 (cleanStep_rooted st e h1 h2).2

theorem Clean_rooted (path : Str) (h : path.head? = some '/') :
    (Clean path).head? = some '/' := by
  have hb : (cleanBuf path).head? = some '/' := by
    unfold cleanBuf
    rw [if_pos h]
    exact foldl_cleanStep_rooted _ _ rfl rfl
  have hp : path ≠ [] := by rintro rfl; simp at h
  have hne : cleanBuf path ≠ [] := by intro e; rw [e] at hb; simp at hb
  simp [Clean, hp, hne, hb]

theorem dstDir_rooted (u : udisk) (h : u.mount.mountPoint.head? = some '/') :
    (dstDir u).head? = some '/' := by
  have hp : u.mount.mountPoint ≠ [] := by intro e; rw [e] at h; simp at h
  unfold dstDir Join
  simp only [List.dropWhile_cons, hp, decide_False, Bool.false_eq_true, if_false]
  exact Clean_rooted _ (head?_append_of_head? _ _ _ h)

theorem insideDir_iff (dir p : Str) :
    insideDir dir p = true ↔ p = dir ∨ (dir ++ ['/']) <+: p := by
  simp [insideDir, List.isPrefixOf_iff_prefix]

theorem insideDir_comparable (d1 d2 p : Str) (h1 : insideDir d1 p = true)
    (h2 : insideDir d2 p = true) :
    d1 = d2 ∨ insideDir d1 d2 = true ∨ insideDir d2 d1 = true := by
  rw [insideDir_iff] at h1 h2
  simp only [insideDir_iff]
  rcases h1 with h1 | h1 <;> rcases h2 with h2 | h2
  · left; rw [← h1, ← h2]
  · right; right; right; rw [← h1]; exact h2
  · right; left; right; rw [← h2]; exact h1
  · have key : ∀ a b : Str, (a ++ ['/']) <+: p → (b ++ ['/']) <+: p → a.length ≤ b.length →
        a = b ∨ (a ++ ['/']) <+: b := by
      intro a b ha hb hlen
      have hab : (a ++ ['/']) <+: (b ++ ['/']) :=
        List.prefix_of_prefix_length_le ha hb (by simp; omega)
      rcases Nat.lt_or_ge a.length b.length with hlt | hge
      · right
        obtain ⟨t, ht⟩ := hab
        have h3 : (a ++ ['/']).length ≤ b.length := by simp; omega
        have := congrArg (List.take (a ++ ['/']).length) ht
        rw [List.take_left, List.take_append_of_le_length h3] at this
        rw [this]
        exact List.take_prefix _ _
      · left
        have hl : a.length = b.length := by omega
        obtain ⟨t, ht⟩ := hab
        have hlen2 := congrArg List.length ht
        simp at hlen2
        have ht0 : t = [] := List.eq_nil_of_length_eq_zero (by omega)
        subst ht0
        simp at ht
        exact ht
    rcases Nat.le_total d1.length d2.length with hle | hle
    · rcases key d1 d2 h1 h2 hle with h | h
      · left; exact h
      · right; left; right; exact h
    · rcases key d2 d1 h2 h1 hle with h | h
      · left; exact h.symm
      · right; right; right; exact h

/-! ## Claims on destination paths -/

/-- C3, the code at the failing input: for the source root `/srv` and the entry
`/srv/www/srv/index.html`, the destination path computed under `/media/usb0/backup` has the
second occurrence of `/srv` replaced as well, so it is not the destination root followed by
`/www/srv/index.html`. -/
theorem dstNewPath_replaces_later_occurrence :
    dstNewPath (target "/media/usb0".toList "backup".toList) "/srv".toList
        ("/srv".toList ++ "/".toList ++ "www/srv/index.html".toList) =
      "/media/usb0/backup/www/media/usb0/backup/index.html".toList ∧
    dstDir (target "/media/usb0".toList "backup".toList) ++ "/".toList ++
        "www/srv/index.html".toList = "/media/usb0/backup/www/srv/index.html".toList ∧
    dstNewPath (target "/media/usb0".toList "backup".toList) "/srv".toList
        ("/srv".toList ++ "/".toList ++ "www/srv/index.html".toList) ≠
      dstDir (target "/media/usb0".toList "backup".toList) ++ "/".toList ++
        "www/srv/index.html".toList := by
  decide

/-- C9, counterexample: with the destination name `backup` and the two different mount
points `/media` and `/media/backup`, the destination path that the target at `/media`
computes for the source entry `/src/backup` is `/media/backup/backup`, the destination
root of the target at `/media/backup`. -/
theorem nested_mount_points_share_paths :
    isSegment "backup".toList = true ∧
    "/media".toList ≠ "/media/backup".toList ∧
    dstNewPath (target "/media".toList "backup".toList) "/src".toList
        ("/src".toList ++ "/".toList ++ "backup".toList) = "/media/backup/backup".toList ∧
    dstDir (target "/media/backup".toList "backup".toList) = "/media/backup/backup".toList ∧
    insideDir (dstDir (target "/media/backup".toList "backup".toList))
      (dstNewPath (target "/media".toList "backup".toList) "/src".toList
        ("/src".toList ++ "/".toList ++ "backup".toList)) = true := by
  decide

/-- C9, amended: for every target `u` whose mount point is absolute, every source root
`src` and every entry path `src + "/" + rel`, the purge path of `Remove`, the root created
by `CopyDir` and the destination path of the entry are the destination root
`Join(mountPoint, dstDirName)` itself or continue it by a separator; and a path that is
inside the destination roots of two targets exists only when these two roots are equal or
one is inside the other. -/
theorem replication_paths_inside_destination (u : udisk) (src rel : Str)
    (hm : u.mount.mountPoint.head? = some '/') :
    insideDir (dstDir u) (udiskOld u u.dstDirName) = true ∧
    insideDir (dstDir u) (dstDir u) = true ∧
    insideDir (dstDir u) (dstNewPath u src (src ++ '/' :: rel)) = true ∧
    ∀ (u2 : udisk) (p : Str), insideDir (dstDir u) p = true → insideDir (dstDir u2) p = true →
      dstDir u = dstDir u2 ∨ insideDir (dstDir u) (dstDir u2) = true ∨
        insideDir (dstDir u2) (dstDir u) = true := by
  refine ⟨?_, ?_, ?_, ?_⟩
  · simp [insideDir, udiskOld, dstDir]
  · simp [insideDir]
  · obtain ⟨tl, htl⟩ := Replace_of_prefix src (dstDir u) rel (dstDir_rooted u hm)
    rw [insideDir_iff]
    right
    unfold dstNewPath
    rw [htl]
    exact ⟨tl, by simp⟩
  · intro u2 p h1 h2
    exact insideDir_comparable _ _ p h1 h2

/-- Witness of `replication_paths_inside_destination`: the target at `/media/usb0` with
the destination name `backup`, the source root `/srv` and the entry `/srv/www/srv/x`. -/
theorem replication_paths_inside_destination_witness :
    (target "/media/usb0".toList "backup".toList).mount.mountPoint.head? = some '/' ∧
    insideDir (dstDir (target "/media/usb0".toList "backup".toList))
      (dstNewPath (target "/media/usb0".toList "backup".toList) "/srv".toList
        ("/srv".toList ++ '/' :: "www/srv/x".toList)) = true :=
  ⟨by decide,
    (replication_paths_inside_destination (target "/media/usb0".toList "backup".toList)
      "/srv".toList "www/srv/x".toList (by decide)).2.2.1⟩

/-! ## Lemmas on the walk -/

mutual
theorem walk_post {σ : Type} (faults : Faults) (fn : WalkFunc σ) (K : σ → Outcome → Prop)
    (hfn : ∀ s p f e, K s (.returned none) → fromWalker e → K (fn s p f e).1 (fn s p f e).2)
    (hskip : ∀ s r, K s r → r.isSkip = false) :
    ∀ (node : Node) (path : Str) (s : σ), K s (.returned none) →
      K (walk faults fn node path s).1 (walk faults fn node path s).2
  | .file mode _, path, s, h => by
    simp only [walk]
    exact hfn s path _ none h (Or.inl rfl)
  | .dir mode kids, path, s, h => by
    have hw : fromWalker ((faults.readDir path).map Error.errno) := by
      cases faults.readDir path with
      | none => exact Or.inl rfl
      | some m => exact Or.inr ⟨m, rfl⟩
    have h1 := hfn s path (some ⟨true, mode⟩) _ h hw
    simp only [walk]
    rcases hr : fn s path (some ⟨true, mode⟩) ((faults.readDir path).map Error.errno)
      with ⟨s1, out⟩
    rw [hr] at h1
    cases out with
    | panicked m => exact h1
    | returned err1 =>
      simp only
      split_ifs with hc
      · exact h1
      · have he : err1 = none := by
          by_contra hne; exact hc (Or.inr hne)
        subst he
        exact walkNames_post faults fn K hfn hskip kids path s1 h1
theorem walkNames_post {σ : Type} (faults : Faults) (fn : WalkFunc σ) (K : σ → Outcome → Prop)
    (hfn : ∀ s p f e, K s (.returned none) → fromWalker e → K (fn s p f e).1 (fn s p f e).2)
    (hskip : ∀ s r, K s r → r.isSkip = false) :
    ∀ (kids : List (Str × Node)) (path : Str) (s : σ), K s (.returned none) →
      K (walkNames faults fn kids path s).1 (walkNames faults fn kids path s).2
  | [], path, s, h => by
    simp only [walkNames]
    exact h
  | (name, child) :: rest, path, s, h => by
    simp only [walkNames]
    cases hl : faults.lstat (Join [path, name]) with
    | some msg =>
      simp only
      have h1 := hfn s (Join [path, name]) none (some (.errno msg)) h (Or.inr ⟨msg, rfl⟩)
      rcases hr : fn s (Join [path, name]) none (some (.errno msg)) with ⟨s1, out⟩
      rw [hr] at h1
      cases out with
      | panicked m => exact h1
      | returned err =>
        simp only
        split_ifs with hc
        · exact h1
        · have he : err = none := by
            by_contra hne
            refine hc ⟨hne, ?_⟩
            intro hsd
            have := hskip _ _ h1
            simp [hsd, Outcome.isSkip] at this
          subst he
          exact walkNames_post faults fn K hfn hskip rest path s1 h1
    | none =>
      simp only
      have h1 := walk_post faults fn K hfn hskip child (Join [path, name]) s h
      rcases hr : walk faults fn child (Join [path, name]) s with ⟨s1, out⟩
      rw [hr] at h1
      cases out with
      | panicked m => exact h1
      | returned err =>
        simp only
        split_ifs with hc
        · exact h1
        · have he : err = none := by
            by_contra hne
            refine hc ⟨hne, Or.inr ?_⟩
            intro hsd
            have := hskip _ _ h1
            simp [hsd, Outcome.isSkip] at this
          subst he
          exact walkNames_post faults fn K hfn hskip rest path s1 h1
end

theorem Walk_post {σ : Type} (faults : Faults) (fs : Node) (root : Str) (fn : WalkFunc σ)
    (K : σ → Outcome → Prop)
    (hfn : ∀ s p f e, K s (.returned none) → fromWalker e → K (fn s p f e).1 (fn s p f e).2)
    (hskip : ∀ s r, K s r → r.isSkip = false) (s : σ) (h : K s (.returned none)) :
    K (Walk faults fs root fn s).1 (Walk faults fs root fn s).2 := by
  have key : ∀ r : σ × Outcome, K r.1 r.2 →
      K (if r.2 = .returned (some .SkipDir) ∨ r.2 = .returned (some .SkipAll) then
          (r.1, Outcome.returned none) else r).1
        (if r.2 = .returned (some .SkipDir) ∨ r.2 = .returned (some .SkipAll) then
          (r.1, Outcome.returned none) else r).2 := by
    rintro ⟨s1, out⟩ hk
    have hs := hskip _ _ hk
    split_ifs with hc
    · rcases hc with hc | hc <;> simp only at hc <;> subst hc <;> simp [Outcome.isSkip] at hs
    · exact hk
  unfold Walk
  apply key
  cases hl : lstat faults fs root with
  | error err =>
    simp only
    refine hfn s root none (some err) h ?_
    unfold lstat at hl
    cases hf : faults.lstat root with
    | some msg => 
      rw [hf] at hl
      simp only [Except.error.injEq] at hl
      exact Or.inr ⟨msg, by rw [hl]⟩
    | none =>
      rw [hf] at hl
      cases hlk : fs.lookup (elems root) with
      | none =>
        rw [hlk] at hl
        simp only [Except.error.injEq] at hl
        exact Or.inr ⟨_, by rw [← hl]⟩
      | some n => rw [hlk] at hl; simp at hl
  | ok info =>
    simp only
    exact walk_post faults fn K hfn hskip info root s h

/-! ## Lemmas on the callback of `CopyDir` -/

theorem osMkdirAll_spec (w : World) (path : Str) (perm : Nat) :
    (osMkdirAll w path perm).1.presented = w.presented ∧
    fromWalker (osMkdirAll w path perm).2 := by
  unfold osMkdirAll
  cases w.faults.mkdirAll path with
  | some msg => exact ⟨rfl, Or.inr ⟨msg, rfl⟩⟩
  | none =>
    cases w.fs.mkdirAll perm (elems path) with
    | none => exact ⟨rfl, Or.inr ⟨_, rfl⟩⟩
    | some fs => exact ⟨rfl, Or.inl rfl⟩

theorem copyFile_spec (w : World) (srcFile dstFile : Str) :
    (copyFile w srcFile dstFile).1.presented = w.presented ∧
    ((copyFile w srcFile dstFile).2.isPanic = true ∨
      ∃ e, (copyFile w srcFile dstFile).2 = .returned e ∧ fromWalker e) := by
  unfold copyFile
  cases ho : osOpen w srcFile with
  | error err =>
    refine ⟨rfl, Or.inr ⟨some err, rfl, ?_⟩⟩
    unfold osOpen at ho
    cases hf : w.faults.openFile srcFile with
    | some msg =>
      rw [hf] at ho
      simp only [Except.error.injEq] at ho
      exact Or.inr ⟨msg, by rw [ho]⟩
    | none =>
      rw [hf] at ho
      cases hlk : w.fs.lookup (elems srcFile) with
      | none =>
        rw [hlk] at ho
        simp only [Except.error.injEq] at ho
        exact Or.inr ⟨_, by rw [← ho]⟩
      | some n => rw [hlk] at ho; simp at ho
  | ok src =>
    simp only
    cases w.faults.stat srcFile with
    | some msg => exact ⟨rfl, Or.inl rfl⟩
    | none =>
      simp only
      cases hc : osCreate w dstFile src.info.mode with
      | error err =>
        refine ⟨rfl, Or.inr ⟨some err, rfl, ?_⟩⟩
        unfold osCreate at hc
        cases hf : w.faults.create dstFile with
        | some msg =>
          rw [hf] at hc
          simp only [Except.error.injEq] at hc
          exact Or.inr ⟨msg, by rw [hc]⟩
        | none =>
          rw [hf] at hc
          cases hcf : w.fs.createFile src.info.mode (elems dstFile) with
          | none =>
            rw [hcf] at hc
            simp only [Except.error.injEq] at hc
            exact Or.inr ⟨_, by rw [← hc]⟩
          | some n => rw [hcf] at hc; simp at hc
      | ok w1 =>
        simp only
        refine ⟨?_, Or.inr ⟨none, rfl, Or.inl rfl⟩⟩
        have h1 : w1.presented = w.presented := by
          unfold osCreate at hc
          cases hf : w.faults.create dstFile with
          | some msg => rw [hf] at hc; simp at hc
          | none =>
            rw [hf] at hc
            cases hcf : w.fs.createFile src.info.mode (elems dstFile) with
            | none => rw [hcf] at hc; simp at hc
            | some n =>
              rw [hcf] at hc
              simp only [Except.ok.injEq] at hc
              rw [← hc]
        rw [← h1]
        unfold ioCopy
        cases w1.faults.copy srcFile dstFile with
        | none => rfl
        | some x => rfl

theorem fromWalker_not_skip (e : Option Error) (h : fromWalker e) :
    (Outcome.returned e).isSkip = false := by
  rcases h with h | ⟨m, h⟩ <;> subst h <;> rfl

theorem current_progressAdd (u : udisk) (h : u.progress.isSome = true) :
    (u.progressAdd 1).current = u.current + 1 ∧ (u.progressAdd 1).progress.isSome = true := by
  unfold udisk.progressAdd udisk.current
  cases hp : u.progress with
  | none => rw [hp] at h; simp at h
  | some bar => simp

/-- What one call of the function literal of `CopyDir` does to the progress counter and to
the history, and how it can end. -/
theorem copyEntry_spec (src dst : Str) (s : udisk × World) (path : Str) (f : Option FileInfo)
    (e : Option Error) (he : fromWalker e) (hp : s.1.progress.isSome = true) :
    (copyEntry src dst s path f e).2.isSkip = false ∧
    (copyEntry src dst s path f e).1.1.progress.isSome = true ∧
    (copyEntry src dst s path f e).1.2.presented = s.2.presented ∧
    (copyEntry src dst s path f e).1.1.current +
        (if (copyEntry src dst s path f e).2.isPanic then 1 else 0) =
      s.1.current + (if f.isSome ∧ path ≠ src then 1 else 0) := by
  unfold copyEntry
  cases f with
  | none =>
    simp only
    exact ⟨fromWalker_not_skip e he, hp, rfl, by simp [Outcome.isPanic]⟩
  | some f =>
    simp only
    by_cases hps : path = src
    · simp only [if_pos hps]
      simp [hp, Outcome.isPanic, Outcome.isSkip, hps]
    · simp only [if_neg hps]
      have hfacts : (if ¬ f.isDir = true then copyFile s.2 path (Replace path src dst (-1))
          else ((osMkdirAll s.2 (Replace path src dst (-1)) f.mode).1,
            Outcome.returned (osMkdirAll s.2 (Replace path src dst (-1)) f.mode).2)).1.presented
            = s.2.presented ∧
          ((if ¬ f.isDir = true then copyFile s.2 path (Replace path src dst (-1))
          else ((osMkdirAll s.2 (Replace path src dst (-1)) f.mode).1,
            Outcome.returned (osMkdirAll s.2 (Replace path src dst (-1)) f.mode).2)).2.isPanic
            = true ∨
          ∃ e1, (if ¬ f.isDir = true then copyFile s.2 path (Replace path src dst (-1))
          else ((osMkdirAll s.2 (Replace path src dst (-1)) f.mode).1,
            Outcome.returned (osMkdirAll s.2 (Replace path src dst (-1)) f.mode).2)).2
            = .returned e1 ∧ fromWalker e1) := by
        split_ifs
        · exact ⟨(osMkdirAll_spec _ _ _).1, Or.inr ⟨_, rfl, (osMkdirAll_spec _ _ _).2⟩⟩
        · exact copyFile_spec _ _ _
      generalize (if ¬ f.isDir = true then copyFile s.2 path (Replace path src dst (-1))
          else ((osMkdirAll s.2 (Replace path src dst (-1)) f.mode).1,
            Outcome.returned (osMkdirAll s.2 (Replace path src dst (-1)) f.mode).2)) = r
        at hfacts ⊢
      obtain ⟨w1, out⟩ := r
      obtain ⟨h1, h2⟩ := hfacts
      cases out with
      | panicked m =>
        exact ⟨rfl, hp, h1, by simp [Outcome.isPanic, hps]⟩
      | returned err1 =>
        rcases h2 with h2 | ⟨e1, h2, h3⟩
        · simp [Outcome.isPanic] at h2
        · simp only [Outcome.returned.injEq] at h2
          subst h2
          refine ⟨fromWalker_not_skip _ h3, (current_progressAdd s.1 hp).2, ?_, ?_⟩
          · show (if err1 ≠ none then w1.println path err1 else w1).presented = s.2.presented
            split_ifs
            · exact h1
            · exact h1
          · show (s.1.progressAdd 1).current + (if (Outcome.returned err1).isPanic = true
                then 1 else 0) = _
            simp [Outcome.isPanic, (current_progressAdd s.1 hp).1, hps]

/-! ## The invariant of the walk of `CopyDir` -/

theorem all_returned_nil (l : List Visit)
    (h1 : ∀ v ∈ l.dropLast, v.result = .returned none)
    (h2 : (l.getLast?.map (fun v => v.result)).getD (.returned none) = .returned none) :
    ∀ v ∈ l, v.result = .returned none := by
  rcases List.eq_nil_or_concat l with h | ⟨init, last, h⟩
  · subst h; simp
  · rw [List.concat_eq_append] at h
    subst h
    simp at h1 h2
    intro v hv
    simp at hv
    rcases hv with hv | hv
    · exact h1 v hv
    · rw [hv]; exact h2

theorem copyCallback_inv (src dst : Str) (s : udisk × World) (path : Str)
    (f : Option FileInfo) (e : Option Error) (hs : walkInv src s (.returned none))
    (he : fromWalker e) :
    walkInv src (copyCallback src dst s path f e).1 (copyCallback src dst s path f e).2 := by
  obtain ⟨-, hp, hcur, hdrop, hlast⟩ := hs
  obtain ⟨c1, c2, c3, c4⟩ := copyEntry_spec src dst s path f e he hp
  have hall := all_returned_nil s.2.presented hdrop hlast
  simp only [Outcome.isPanic, Bool.false_eq_true, if_false, add_zero] at hcur
  refine ⟨c1, c2, ?_, ?_, ?_⟩
  · simp only [copyCallback]
    rw [c4, hcur]
    simp only [presentedWithInfo, c3, List.filter_append, List.length_append, Nat.cast_add]
    congr 1
    by_cases hf : f.isSome = true ∧ path ≠ src
    · simp [hf.1, hf.2, List.filter_cons]
    · rw [if_neg hf]
      by_cases h1 : f.isSome = true
      · have h2 : path = src := by
          by_contra h2; exact hf ⟨h1, h2⟩
        simp [h2]
      · simp [h1]
  · simp only [copyCallback, c3, List.dropLast_concat]
    exact hall
  · simp [copyCallback, lastResult]

theorem CopyDir_inv (u : udisk) (src : Str) (w : World) (hw : w.presented = []) :
    (∀ v ∈ (CopyDir u src w).1.2.presented.dropLast, v.result = .returned none) ∧
    ((CopyDir u src w).1.2.presented ≠ [] →
      lastResult (CopyDir u src w).1.2 = (CopyDir u src w).2) ∧
    ((osMkdirAll w (dstDir u) u.srcDirMode).2 = none →
      (CopyDir u src w).1.1.progress.isSome = true ∧
      (CopyDir u src w).1.1.current + (if (CopyDir u src w).2.isPanic then 1 else 0) =
        presentedWithInfo src (CopyDir u src w).1.2) := by
  have hm := (osMkdirAll_spec w (dstDir u) u.srcDirMode).1
  unfold CopyDir
  rcases hr : osMkdirAll w (dstDir u) u.srcDirMode with ⟨w1, e⟩
  rw [hr] at hm
  simp only at hm
  have hw1 : w1.presented = [] := by rw [hm, hw]
  cases e with
  | some err =>
    simp [World.println, hw1]
  | none =>
    simp only
    by_cases hg : TrimSpace src = TrimSpace (dstDir u)
    · simp only [if_pos hg]
      simp [hw1, presentedWithInfo, udisk.current, Outcome.isPanic]
    · simp only [if_neg hg]
      have h0 : walkInv src
          ({ u with progress := some ⟨u.total, 0, false, (u.index, dstDir u)⟩ }, w1)
          (.returned none) := by
        refine ⟨rfl, rfl, ?_, ?_, ?_⟩
        · simp [udisk.current, presentedWithInfo, hw1, Outcome.isPanic]
        · simp [hw1]
        · simp [lastResult, hw1]
      have hpost := Walk_post w1.faults w1.fs src (copyCallback src (dstDir u)) (walkInv src)
        (fun s p f e hs he => copyCallback_inv src (dstDir u) s p f e hs he)
        (fun s r hk => hk.1) _ h0
      rcases hwalk : Walk w1.faults w1.fs src (copyCallback src (dstDir u))
        ({ u with progress := some ⟨u.total, 0, false, (u.index, dstDir u)⟩ }, w1)
        with ⟨s, out⟩
      rw [hwalk] at hpost
      obtain ⟨-, k2, k3, k4, k5⟩ := hpost
      cases out with
      | panicked msg => exact ⟨k4, fun _ => k5, fun _ => ⟨k2, k3⟩⟩
      | returned err =>
        simp only at k2 k3 k4 k5 ⊢
        refine ⟨k4, fun _ => k5, fun _ => ⟨?_, ?_⟩⟩
        · simp only [udisk.progressFinish, Option.isSome_map']
          exact k2
        · rw [← k3]
          congr 1
          simp only [udisk.current, udisk.progressFinish]
          cases s.1.progress with
          | none => rfl
          | some bar => rfl

/-! ## The program on the example states -/

/-- C4, the code at the failing input: the destination root of the target is the source
directory `/media/usb0/backup`.  The task returns the same-path error, but only after
`Remove` has deleted the source directory with its files and `CopyDir` has created the
directory again, empty. -/
theorem replicate_same_path_destroys_source :
    mainTargets "/media/usb0/backup".toList "backup".toList
      (.ok "/dev/sdb1 /media/usb0 vfat rw 0 0\n".toList) sourceOnTarget = some [usb0] ∧
    dstDir usb0 = "/media/usb0/backup".toList ∧
    TrimSpace "/media/usb0/backup".toList = TrimSpace (dstDir usb0) ∧
    (replicate usb0 "/media/usb0/backup".toList sourceOnTarget).2 =
      .returned (some (.New "src not invail")) ∧
    sourceOnTarget.fs.listing [] =
      [([], ⟨true, 0o755⟩, []), ("/media".toList, ⟨true, 0o755⟩, []),
        ("/media/usb0".toList, ⟨true, 0o755⟩, []),
        ("/media/usb0/backup".toList, ⟨true, 0o755⟩, []),
        ("/media/usb0/backup/a.txt".toList, ⟨false, 0o644⟩, [104, 105]),
        ("/media/usb0/backup/b.txt".toList, ⟨false, 0o600⟩, [111])] ∧
    (replicate usb0 "/media/usb0/backup".toList sourceOnTarget).1.2.fs.listing [] =
      [([], ⟨true, 0o755⟩, []), ("/media".toList, ⟨true, 0o755⟩, []),
        ("/media/usb0".toList, ⟨true, 0o755⟩, []),
        ("/media/usb0/backup".toList, ⟨true, 0o755⟩, [])] ∧
    (Remove usb0 usb0.dstDirName sourceOnTarget).1.fs.listing [] =
      [([], ⟨true, 0o755⟩, []), ("/media".toList, ⟨true, 0o755⟩, []),
        ("/media/usb0".toList, ⟨true, 0o755⟩, [])] := by
  decide

/-- C5, counterexample: in the source `/src` with the files `a.txt` and `b.txt`, of which
only `a.txt` cannot be opened, the walk of `CopyDir` presents the root and `a.txt` and
stops: `b.txt` is never presented and is missing from the destination. -/
theorem CopyDir_stops_at_unreadable_file :
    (CopyDir usb0 "/src".toList unreadableA).1.2.presented =
      [⟨"/src".toList, true, .returned none⟩,
        ⟨"/src/a.txt".toList, true, .returned (some (.errno "permission denied"))⟩] ∧
    (CopyDir usb0 "/src".toList unreadableA).2 =
      .returned (some (.errno "permission denied")) ∧
    (CopyDir usb0 "/src".toList unreadableA).1.2.fs.listing [] =
      [([], ⟨true, 0o755⟩, []), ("/media".toList, ⟨true, 0o755⟩, []),
        ("/media/usb0".toList, ⟨true, 0o755⟩, []),
        ("/media/usb0/backup".toList, ⟨true, 0o755⟩, []),
        ("/src".toList, ⟨true, 0o755⟩, []),
        ("/src/a.txt".toList, ⟨false, 0o644⟩, [104, 105]),
        ("/src/b.txt".toList, ⟨false, 0o600⟩, [111])] ∧
    (CopyDir usb0 "/src".toList ⟨twoFiles, Faults.none, [], []⟩).1.2.fs.listing [] =
      [([], ⟨true, 0o755⟩, []), ("/media".toList, ⟨true, 0o755⟩, []),
        ("/media/usb0".toList, ⟨true, 0o755⟩, []),
        ("/media/usb0/backup".toList, ⟨true, 0o755⟩, []),
        ("/media/usb0/backup/a.txt".toList, ⟨false, 0o644⟩, [104, 105]),
        ("/media/usb0/backup/b.txt".toList, ⟨false, 0o600⟩, [111]),
        ("/src".toList, ⟨true, 0o755⟩, []),
        ("/src/a.txt".toList, ⟨false, 0o644⟩, [104, 105]),
        ("/src/b.txt".toList, ⟨false, 0o600⟩, [111])] := by
  decide

/-- C6, the code at the failing input: when copying the bytes fails because the device is
full, `copyFile` returns nil and leaves an empty destination file; when syncing fails it
returns nil; when reading the file info fails it panics. -/
theorem copyFile_drops_step_errors :
    deviceFull.faults.copy "/src/a.txt".toList "/media/usb0/a.txt".toList =
      some (0, "no space left on device") ∧
    (copyFile deviceFull "/src/a.txt".toList "/media/usb0/a.txt".toList).2 = .returned none ∧
    (copyFile deviceFull "/src/a.txt".toList "/media/usb0/a.txt".toList).1.fs.listing [] =
      [([], ⟨true, 0o755⟩, []), ("/media".toList, ⟨true, 0o755⟩, []),
        ("/media/usb0".toList, ⟨true, 0o755⟩, []),
        ("/media/usb0/a.txt".toList, ⟨false, 0o644⟩, []),
        ("/src".toList, ⟨true, 0o755⟩, []),
        ("/src/a.txt".toList, ⟨false, 0o644⟩, [104, 105]),
        ("/src/b.txt".toList, ⟨false, 0o600⟩, [111])] ∧
    fileSync syncFails "/media/usb0/a.txt".toList = some (.errno "input/output error") ∧
    (copyFile syncFails "/src/a.txt".toList "/media/usb0/a.txt".toList).2 = .returned none ∧
    statFails.faults.stat "/src/a.txt".toList = some "input/output error" ∧
    (copyFile statFails "/src/a.txt".toList "/media/usb0/a.txt".toList).2 =
      .panicked "invalid memory address or nil pointer dereference" := by
  decide

/-- C7, counterexample: in the source `/src` the entry `a.txt` arrives with no file info.
It is a non-root entry presented to the callback, and the progress counter stays at 0. -/
theorem CopyDir_entry_without_info_not_counted :
    (CopyDir usb0 "/src".toList noInfoA).1.2.presented =
      [⟨"/src".toList, true, .returned none⟩,
        ⟨"/src/a.txt".toList, false, .returned (some (.errno "permission denied"))⟩] ∧
    presentedNonRoot "/src".toList (CopyDir usb0 "/src".toList noInfoA).1.2 = 1 ∧
    (CopyDir usb0 "/src".toList noInfoA).1.1.current = 0 ∧
    (CopyDir usb0 "/src".toList noInfoA).1.1.progress =
      some ⟨2, 0, true, (0, "/media/usb0/backup".toList)⟩ := by
  decide

/-! ## Claims on the walk of `CopyDir` -/

/-- C5, amended: the walk of `CopyDir` stops at the first entry whose copy or creation
fails.  For a file that cannot be opened the callback returns the error of `os.Open`;
every entry presented before the last one was processed with the result nil, so an entry
for which the callback returns an error is the last one presented (later entries are
neither presented nor copied), and `CopyDir` ends as the last call of the callback did. -/
theorem CopyDir_stops_at_first_error (u : udisk) (src : Str) (w : World)
    (hw : w.presented = []) :
    (∀ (s : udisk × World) (path : Str) (f : FileInfo) (err : Option Error) (msg : String),
      s.2.faults.openFile path = some msg → f.isDir = false → path ≠ src →
      (copyCallback src (dstDir u) s path (some f) err).2 = .returned (some (.errno msg))) ∧
    (∀ v ∈ (CopyDir u src w).1.2.presented.dropLast, v.result = .returned none) ∧
    ((CopyDir u src w).1.2.presented ≠ [] →
      lastResult (CopyDir u src w).1.2 = (CopyDir u src w).2) := by
  refine ⟨?_, (CopyDir_inv u src w hw).1, (CopyDir_inv u src w hw).2.1⟩
  intro s path f err msg hopen hdir hps
  simp [copyCallback, copyEntry, hps, hdir, copyFile, osOpen, hopen]

/-- Witness of `CopyDir_stops_at_first_error`: the source `/src` in which `a.txt` cannot
be opened. -/
theorem CopyDir_stops_at_first_error_witness :
    unreadableA.presented = [] ∧
    ∀ v ∈ (CopyDir usb0 "/src".toList unreadableA).1.2.presented.dropLast,
      v.result = .returned none :=
  ⟨rfl, (CopyDir_stops_at_first_error usb0 "/src".toList unreadableA rfl).2.1⟩

/-- C7, amended: when `CopyDir` has created its destination root, the progress bar is
started, and after the walk the progress counter has advanced by exactly one for each
non-root entry that was presented to the callback with file info, whether it was copied
or failed to copy (one less if the last call panicked); an entry that arrives with no
file info does not advance the counter. -/
theorem CopyDir_progress_counts_entries_with_info (u : udisk) (src : Str) (w : World)
    (hw : w.presented = []) (hroot : (osMkdirAll w (dstDir u) u.srcDirMode).2 = none) :
    (CopyDir u src w).1.1.progress.isSome = true ∧
    (CopyDir u src w).1.1.current + (if (CopyDir u src w).2.isPanic then 1 else 0) =
      presentedWithInfo src (CopyDir u src w).1.2 :=
  (CopyDir_inv u src w hw).2.2 hroot

/-- Witness of `CopyDir_progress_counts_entries_with_info`: the source `/src` in which
`a.txt` cannot be opened; the counter stands at 1. -/
theorem CopyDir_progress_counts_entries_with_info_witness :
    unreadableA.presented = [] ∧
    (osMkdirAll unreadableA (dstDir usb0) usb0.srcDirMode).2 = none ∧
    (CopyDir usb0 "/src".toList unreadableA).1.1.current +
        (if (CopyDir usb0 "/src".toList unreadableA).2.isPanic then 1 else 0) =
      presentedWithInfo "/src".toList (CopyDir usb0 "/src".toList unreadableA).1.2 :=
  ⟨rfl, by decide,
    (CopyDir_progress_counts_entries_with_info usb0 "/src".toList unreadableA rfl
      (by decide)).2⟩

/-! ## Lemmas on the paths of a walk and on the counting walk -/

theorem pathElems_ne_nil (s : Str) : pathElems s ≠ [] := by
  cases s with
  | nil => simp [pathElems]
  | cons c cs =>
    unfold pathElems
    split_ifs
    · simp
    · split <;> simp

theorem pathElems_append (a b : Str) :
    pathElems (a ++ '/' :: b) = pathElems a ++ pathElems b := by
  induction a with
  | nil => simp [pathElems]
  | cons c cs ih =>
    by_cases hc : c = '/'
    · simp [pathElems, hc, ih]
    · simp only [List.cons_append, pathElems, hc, if_false]
      have ih1 : pathElems (cs.append ('/' :: b)) = pathElems cs ++ pathElems b := ih
      rw [ih1]
      cases h : pathElems cs with
      | nil => exact absurd h (pathElems_ne_nil cs)
      | cons e es => simp

theorem pathElems_segment (n : Str) (h : '/' ∉ n) : pathElems n = [n] := by
  induction n with
  | nil => rfl
  | cons c cs ih =>
    simp only [List.mem_cons, not_or] at h
    have hc : c ≠ '/' := fun e => h.1 e.symm
    simp [pathElems, hc, ih h.2]

theorem isSegment_iff (n : Str) :
    isSegment n = true ↔ n ≠ [] ∧ '/' ∉ n ∧ n ≠ ['.'] ∧ n ≠ ['.', '.'] := by
  simp [isSegment, and_assoc]

theorem cleanStep_segment (st : Str × Nat) (n : Str) (hn : isSegment n = true) :
    cleanStep true st n = ((if st.1.length ≠ 1 then st.1 ++ ['/'] else st.1) ++ n, st.2) := by
  obtain ⟨h1, -, h3, h4⟩ := (isSegment_iff n).1 hn
  simp [cleanStep, h1, h3, h4]

theorem cleanBuf_of_isCleanAbs (p : Str) (h : isCleanAbs p) :
    ((pathElems p).foldl (cleanStep true) (['/'], 1)).1 = p := by
  obtain ⟨h1, h2⟩ := h
  have hp : p ≠ [] := by rintro rfl; simp at h1
  have hb : (cleanBuf p).head? = some '/' := by
    unfold cleanBuf
    rw [if_pos h1]
    exact foldl_cleanStep_rooted _ _ rfl rfl
  have hne : cleanBuf p ≠ [] := by intro e; rw [e] at hb; simp at hb
  have hc : Clean p = cleanBuf p := by simp [Clean, hp, hne]
  rw [hc] at h2
  have : cleanBuf p = ((pathElems p).foldl (cleanStep true) (['/'], 1)).1 := by
    unfold cleanBuf
    rw [if_pos h1]
  rw [← this, h2]

theorem Clean_child (p n : Str) (hp : isCleanAbs p) (hn : isSegment n = true) :
    Clean (p ++ '/' :: n) = (if p.length ≠ 1 then p ++ ['/'] else p) ++ n := by
  have h1 : (p ++ '/' :: n).head? = some '/' := head?_append_of_head? _ _ _ hp.1
  have hseg := (isSegment_iff n).1 hn
  have hb : cleanBuf (p ++ '/' :: n) = (if p.length ≠ 1 then p ++ ['/'] else p) ++ n := by
    unfold cleanBuf
    rw [if_pos h1, pathElems_append, pathElems_segment n hseg.2.1, List.foldl_append]
    simp only [List.foldl_cons, List.foldl_nil]
    rw [cleanStep_segment _ _ hn, cleanBuf_of_isCleanAbs p hp]
  have hne : p ++ '/' :: n ≠ [] := by simp
  have hne2 : (if p.length ≠ 1 then p ++ ['/'] else p) ++ n ≠ [] := by
    simp [hseg.1]
  unfold Clean
  rw [if_neg hne, hb, if_neg hne2]

theorem Join_child (p n : Str) (hp : isCleanAbs p) (hn : isSegment n = true) :
    isCleanAbs (Join [p, n]) ∧ p <+: Join [p, n] ∧ p.length < (Join [p, n]).length := by
  have hpne : p ≠ [] := by rintro rfl; simp [isCleanAbs] at hp
  have hseg := (isSegment_iff n).1 hn
  have hJ : Join [p, n] = (if p.length ≠ 1 then p ++ ['/'] else p) ++ n := by
    unfold Join
    simp only [List.dropWhile_cons, hpne, decide_False, Bool.false_eq_true, if_false, joinSep]
    exact Clean_child p n hp hn
  have hnlen : 0 < n.length := List.length_pos.2 hseg.1
  rw [hJ]
  refine ⟨⟨?_, ?_⟩, ?_, ?_⟩
  · split_ifs
    · exact head?_append_of_head? _ _ _ (head?_append_of_head? _ _ _ hp.1)
    · exact head?_append_of_head? _ _ _ hp.1
  · by_cases hl : p.length ≠ 1
    · rw [if_pos hl]
      have := Clean_child p n hp hn
      rw [if_pos hl] at this
      simpa using this
    · rw [if_neg hl]
      have hl1 : p.length = 1 := by omega
      have hp1 : p = ['/'] := by
        match p, hp.1, hl1 with
        | [c], h, _ => simp at h; rw [h]
      subst hp1
      have hne : '/' :: n ≠ [] := by simp
      have hb : cleanBuf ('/' :: n) = '/' :: n := by
        unfold cleanBuf
        simp only [List.head?_cons, if_true, pathElems, List.foldl_cons]
        rw [pathElems_segment n hseg.2.1]
        simp only [List.foldl_cons, List.foldl_nil]
        have h0 : cleanStep true (['/'], 1) [] = (['/'], 1) := by simp [cleanStep]
        rw [h0, cleanStep_segment _ _ hn]
        simp
      simp only [List.singleton_append]
      unfold Clean
      rw [if_neg hne, hb, if_neg hne]
  · split_ifs
    · rw [List.append_assoc]; exact List.prefix_append _ _
    · exact List.prefix_append _ _
  · split_ifs
    · simp
    · simp; omega

theorem Join_eq_childPath (p n : Str) (hp : isCleanAbs p) (hn : isSegment n = true) :
    Join [p, n] = childPath p n := by
  have hpne : p ≠ [] := by rintro rfl; simp [isCleanAbs] at hp
  unfold Join
  simp only [List.dropWhile_cons, hpne, decide_False, Bool.false_eq_true, if_false, joinSep]
  exact Clean_child p n hp hn

theorem CleanPath_isCleanAbs (p : Str) (h : CleanPath p) : isCleanAbs p := by
  induction h with
  | root => exact ⟨by decide, by decide⟩
  | child p n _ hn ih =>
    rw [← Join_eq_childPath p n ih hn]
    exact (Join_child p n ih hn).1

theorem CleanPath_head (p : Str) (h : CleanPath p) : p.head? = some '/' :=
  (CleanPath_isCleanAbs p h).1

theorem pathElems_no_sep (s : Str) : ∀ e ∈ pathElems s, '/' ∉ e := by
  induction s with
  | nil => simp [pathElems]
  | cons c cs ih =>
    intro e he
    unfold pathElems at he
    split_ifs at he with hc
    · rcases List.mem_cons.1 he with h | h
      · rw [h]; simp
      · exact ih e h
    · cases hp : pathElems cs with
      | nil => exact absurd hp (pathElems_ne_nil cs)
      | cons e0 es =>
        rw [hp] at he ih
        simp only [List.mem_cons] at he
        rcases he with h | h
        · rw [h]
          simp only [List.mem_cons, not_or]
          exact ⟨fun e1 => hc e1.symm, ih e0 (List.mem_cons_self _ _)⟩
        · exact ih e (List.mem_cons_of_mem _ h)

/-- The backward scan of the `..` case stops at `lo` when no separator stands above `lo`
and either `lo` is the floor `dotdot` or a separator stands at `lo`. -/
theorem backtrack_eq (out : Str) (dotdot lo : Nat) (hlo : dotdot ≤ lo)
    (hstop : lo = dotdot ∨ out.getD lo '/' = '/') :
    ∀ w, lo ≤ w → (∀ i, lo < i → i ≤ w → out.getD i '/' ≠ '/') → backtrack out dotdot w = lo := by
  intro w
  induction w with
  | zero =>
    intro h _
    have : lo = 0 := by omega
    simp [backtrack, this]
  | succ w ih =>
    intro h hno
    unfold backtrack
    rcases Nat.lt_or_ge lo (w + 1) with hlt | hge
    · have hc : dotdot < w + 1 ∧ out.getD (w + 1) '/' ≠ '/' :=
        ⟨by omega, hno (w + 1) hlt (Nat.le_refl _)⟩
      rw [if_pos hc]
      exact ih (by omega) (fun i h1 h2 => hno i h1 (by omega))
    · have heq : lo = w + 1 := by omega
      have hc : ¬ (dotdot < w + 1 ∧ out.getD (w + 1) '/' ≠ '/') := by
        rintro ⟨h1, h2⟩
        rcases hstop with h3 | h3
        · omega
        · rw [heq] at h3; exact h2 h3
      rw [if_neg hc, heq]

theorem CleanPath_length_pos (p : Str) (h : CleanPath p) : 1 ≤ p.length := by
  have := CleanPath_head p h
  cases p with
  | nil => simp at this
  | cons c cs => simp

theorem backtrack_childPath (p n : Str) (hp : CleanPath p) (hn : isSegment n = true) :
    (childPath p n).take (backtrack (childPath p n) 1 ((childPath p n).length - 1)) = p := by
  obtain ⟨hne, hsep, -, -⟩ := (isSegment_iff n).1 hn
  have hnlen : 0 < n.length := List.length_pos.2 hne
  have hplen := CleanPath_length_pos p hp
  have hget : ∀ (pre : Str) (i : Nat), pre.length ≤ i → (pre ++ n).getD i '/' ≠ '/' ∨
      (pre ++ n).length ≤ i := by
    intro pre i hi
    rcases Nat.lt_or_ge i (pre ++ n).length with hlt | hge
    · left
      rw [List.getD_eq_getElem _ _ hlt, List.getElem_append_right hi]
      intro hc
      exact hsep (hc ▸ List.getElem_mem _)
    · right; exact hge
  by_cases hl : p.length ≠ 1
  · have hb : backtrack (childPath p n) 1 ((childPath p n).length - 1) = p.length := by
      apply backtrack_eq _ 1 p.length hplen
      · right
        simp only [childPath, if_pos hl, List.append_assoc]
        rw [List.getD_eq_getElem _ _ (by simp), List.getElem_append_right (Nat.le_refl _)]
        simp
      · simp only [childPath, if_pos hl, List.length_append, List.length_singleton]; omega
      · intro i h1 h2
        simp only [childPath, if_pos hl] at h2 ⊢
        rcases hget (p ++ ['/']) i (by simp; omega) with h | h
        · exact h
        · simp only [List.length_append, List.length_singleton] at h h2; omega
    rw [hb]
    simp only [childPath, if_pos hl, List.append_assoc]
    exact List.take_left' rfl
  · have hl1 : p.length = 1 := by omega
    have hb : backtrack (childPath p n) 1 ((childPath p n).length - 1) = 1 := by
      apply backtrack_eq _ 1 1 (Nat.le_refl _) (Or.inl rfl)
      · simp only [childPath, if_neg hl, List.length_append]; omega
      · intro i h1 h2
        simp only [childPath, if_neg hl] at h2 ⊢
        rcases hget p i (by omega) with h | h
        · exact h
        · simp only [List.length_append] at h h2; omega
    rw [hb]
    simp only [childPath, if_neg hl]
    exact List.take_left' hl1

theorem cleanStep_CleanPath (st : Str × Nat) (e : Str) (h1 : CleanPath st.1) (h2 : st.2 = 1)
    (he : '/' ∉ e) : CleanPath (cleanStep true st e).1 := by
  obtain ⟨buf, dd⟩ := st
  simp only at h1 h2
  subst h2
  by_cases ha : e = [] ∨ e = ['.']
  · simp only [cleanStep, if_pos ha]; exact h1
  · by_cases hb : e = ['.', '.']
    · simp only [cleanStep, if_neg ha, if_pos hb, if_true]
      split_ifs with hc
      · cases h1 with
        | root => simp at hc
        | child p n hp hn =>
          simp only
          rw [backtrack_childPath p n hp hn]
          exact hp
      · exact h1
    · have hseg : isSegment e = true := by
        rw [isSegment_iff]
        simp only [not_or] at ha
        exact ⟨ha.1, he, ha.2, hb⟩
      rw [cleanStep_segment _ e hseg]
      exact CleanPath.child _ _ h1 hseg

theorem foldl_cleanStep_CleanPath (es : List Str) (st : Str × Nat) (h1 : CleanPath st.1)
    (h2 : st.2 = 1) (he : ∀ e ∈ es, '/' ∉ e) :
    CleanPath (es.foldl (cleanStep true) st).1 := by
  induction es generalizing st with
  | nil => exact h1
  | cons e es ih =>
    simp only [List.foldl_cons]
    exact ih _ (cleanStep_CleanPath st e h1 h2 (he e (List.mem_cons_self _ _)))
      (cleanStep_rooted st e (CleanPath_head _ h1) h2).2
      (fun e1 h => he e1 (List.mem_cons_of_mem _ h))

theorem Clean_isCleanAbs (p : Str) (h : p.head? = some '/') : isCleanAbs (Clean p) := by
  have hcp : CleanPath (cleanBuf p) := by
    unfold cleanBuf
    rw [if_pos h]
    exact foldl_cleanStep_CleanPath _ _ CleanPath.root rfl (pathElems_no_sep p)
  have hp : p ≠ [] := by rintro rfl; simp at h
  have hne : cleanBuf p ≠ [] := by
    intro e
    have := CleanPath_length_pos _ hcp
    rw [e] at this; simp at this
  have hc : Clean p = cleanBuf p := by simp [Clean, hp, hne]
  rw [hc]
  exact CleanPath_isCleanAbs _ hcp

/-- The source root that `init` computes in an absolute working directory is a clean
absolute path. -/
theorem initFlagSrc_isCleanAbs (wd flag : Str) (hwd : wd.head? = some '/') :
    isCleanAbs (initFlagSrc wd flag) := by
  unfold initFlagSrc Abs
  split_ifs with h
  · exact Clean_isCleanAbs flag h
  · have hp : wd ≠ [] := by rintro rfl; simp at hwd
    unfold Join
    simp only [List.dropWhile_cons, hp, decide_False, Bool.false_eq_true, if_false]
    exact Clean_isCleanAbs _ (head?_append_of_head? _ _ _ hwd)

mutual
theorem walk_count (faults : Faults) (src : Str)
    (hf : ∀ p, src <+: p → faults.lstat p = none ∧ faults.readDir p = none) :
    ∀ (node : Node) (path : Str) (n : Nat), isCleanAbs path → src <+: path →
      src.length < path.length → node.namesValid = true →
      walk faults (countEntry src) node path n = (n + 1 + node.descendants, .returned none)
  | .file mode _, path, n, _, _, hlen, _ => by
    have hne : path ≠ src := by
      intro e; rw [e] at hlen; exact Nat.lt_irrefl _ hlen
    simp [walk, countEntry, hne, Node.descendants]
  | .dir mode kids, path, n, hc, hpre, hlen, hv => by
    have hne : path ≠ src := by
      intro e; rw [e] at hlen; exact Nat.lt_irrefl _ hlen
    have hv1 : namesValidKids kids = true := by simpa [Node.namesValid] using hv
    simp only [walk, countEntry, (hf path hpre).2, Option.map_none', Option.isSome_some,
      true_and, ne_eq, hne, not_false_eq_true, if_true, not_true_eq_false, or_self, if_false]
    rw [walkNames_count faults src hf kids path (n + 1) hc hpre hv1]
    simp [Node.descendants]
theorem walkNames_count (faults : Faults) (src : Str)
    (hf : ∀ p, src <+: p → faults.lstat p = none ∧ faults.readDir p = none) :
    ∀ (kids : List (Str × Node)) (path : Str) (n : Nat), isCleanAbs path → src <+: path →
      namesValidKids kids = true →
      walkNames faults (countEntry src) kids path n = (n + descendantsKids kids, .returned none)
  | [], path, n, _, _, _ => by
    simp [walkNames, descendantsKids]
  | (name, child) :: rest, path, n, hc, hpre, hv => by
    simp only [namesValidKids, Bool.and_eq_true] at hv
    obtain ⟨⟨hseg, hchild⟩, hrest⟩ := hv
    obtain ⟨j1, j2, j3⟩ := Join_child path name hc hseg
    have hpre2 : src <+: Join [path, name] := hpre.trans j2
    have hlen2 : src.length < (Join [path, name]).length :=
      Nat.lt_of_le_of_lt hpre.length_le j3
    simp only [walkNames, (hf _ hpre2).1]
    rw [walk_count faults src hf child (Join [path, name]) n j1 hpre2 hlen2 hchild]
    simp only [ne_eq, not_true_eq_false, false_and, if_false]
    rw [walkNames_count faults src hf rest path _ hc hpre hrest]
    simp only [descendantsKids, Prod.mk.injEq, and_true]
    omega
end

theorem descendantsKids_flat (kids : List (Str × Node))
    (h : ∀ kv ∈ kids, kv.2.descendants = 0) :
    descendantsKids kids =
      (kids.filter (fun kv => kv.2.isFile)).length +
        (kids.filter (fun kv => !kv.2.isFile)).length := by
  induction kids with
  | nil => rfl
  | cons kv rest ih =>
    obtain ⟨name, child⟩ := kv
    have h1 := h (name, child) (List.mem_cons_self _ _)
    have h2 := ih (fun kv hkv => h kv (List.mem_cons_of_mem _ hkv))
    simp only at h1
    simp only [descendantsKids, h1, h2, List.filter_cons]
    cases child.isFile <;> simp <;> omega

/-! ## Claim on the file counter -/

/-- C8: let the source root be the one that `init` computes (`filepath.Abs` of the option
`-i` in an absolute working directory), let the tree `root` stand at it, every name in the
tree being a directory-entry name, and let neither `Lstat` nor the reading of a directory
fail at the root or beneath it.  Then the counting walk of `main` ends with `fileNumbers`
equal to the number of files and directories strictly beneath the root: 0 for an empty
directory, and the number of files plus the number of subdirectories for a directory whose
entries are files and empty directories. -/
theorem fileNumbers_counts_descendants (w : World) (wd flag : Str) (root : Node)
    (hwd : wd.head? = some '/')
    (hroot : w.fs.lookup (elems (initFlagSrc wd flag)) = some root)
    (hnames : root.namesValid = true)
    (hok : ∀ p, initFlagSrc wd flag <+: p →
      w.faults.lstat p = none ∧ w.faults.readDir p = none) :
    fileNumbers (initFlagSrc wd flag) w = root.descendants ∧
    (∀ mode, root = .dir mode [] → fileNumbers (initFlagSrc wd flag) w = 0) ∧
    (∀ mode kids, root = .dir mode kids → (∀ kv ∈ kids, kv.2.descendants = 0) →
      fileNumbers (initFlagSrc wd flag) w =
        (kids.filter (fun kv => kv.2.isFile)).length +
          (kids.filter (fun kv => !kv.2.isFile)).length) := by
  have hsrc := initFlagSrc_isCleanAbs wd flag hwd
  generalize initFlagSrc wd flag = flagSrc at hroot hok hsrc ⊢
  have hmain : fileNumbers flagSrc w = root.descendants := by
    unfold fileNumbers Walk lstat
    rw [(hok flagSrc (List.prefix_refl _)).1]
    simp only [hroot]
    cases root with
    | file mode content =>
      simp [walk, countEntry, Node.descendants]
    | dir mode kids =>
      have hv1 : namesValidKids kids = true := by simpa [Node.namesValid] using hnames
      simp only [walk, countEntry, (hok flagSrc (List.prefix_refl _)).2, Option.map_none',
        ne_eq, not_true_eq_false, and_false, if_false, or_self]
      rw [walkNames_count w.faults flagSrc hok kids flagSrc 0 hsrc (List.prefix_refl _) hv1]
      simp [Node.descendants]
  refine ⟨hmain, ?_, ?_⟩
  · intro mode h
    rw [hmain, h]
    rfl
  · intro mode kids h hflat
    rw [hmain, h]
    simp only [Node.descendants]
    exact descendantsKids_flat kids hflat

/-- Witness of `fileNumbers_counts_descendants`: the option `-i src` in the working
directory `/`, the source `/src` holding two files and two empty subdirectories; the
counter ends at 4. -/
theorem fileNumbers_counts_descendants_witness :
    "/".toList.head? = some '/' ∧
    initFlagSrc "/".toList "src".toList = "/src".toList ∧
    flatSource.fs.lookup (elems (initFlagSrc "/".toList "src".toList)) = some flatRoot ∧
    flatRoot.namesValid = true ∧
    (∀ p, initFlagSrc "/".toList "src".toList <+: p →
      flatSource.faults.lstat p = none ∧ flatSource.faults.readDir p = none) ∧
    fileNumbers (initFlagSrc "/".toList "src".toList) flatSource = flatRoot.descendants ∧
    flatRoot.descendants = 4 :=
  ⟨by decide, by decide, rfl, by decide, fun _ _ => ⟨rfl, rfl⟩,
    (fileNumbers_counts_descendants flatSource "/".toList "src".toList flatRoot (by decide)
      rfl (by decide) (fun _ _ => ⟨rfl, rfl⟩)).1,
    by decide⟩

end UdiskCopy
